import Mathlib

/-
Verification of the PII-masking and security-analysis core of the repository
(src/cleansing/pii_detector.py and src/analysis/security_analyzer.py).

Python strings are modelled as `List Char` (ASCII-faithful; the unicode-only
corners of Python's `re` case folding and `\s`/`\w` classes are modelled at
their ASCII meaning).  Python's `re` patterns are modelled by a small
backtracking regex engine: `matchList` returns every possible match length at
a position in backtracking-priority order (alternation: left first;
quantifiers: greedy), so `List.head?` is exactly the match Python's engine
picks, and `finditer`/`search`/`findall` are derived the same way the
`re` module derives them.
-/

abbrev Str := List Char

/-- Coerce a Lean string literal to the `List Char` model of Python strings. -/
def str (s : String) : Str := s.data

/-- Python slicing `text[a:b]` for `0 ≤ a ≤ b` (clamping like Python). -/
def pySlice (s : Str) (a b : Nat) : Str := (s.drop a).take (b - a)

/-- Python `s[-n:]`: the last `n` characters (the whole string when shorter). -/
def takeLast (n : Nat) (s : Str) : Str := s.drop (s.length - n)

/-- Python string repetition `s * n` (empty for `n = 0`, matching `n ≤ 0`). -/
def pyMul (s : Str) (n : Nat) : Str := (List.replicate n s).flatten

/-- Python `str.split(sep)` for a one-character separator: split at every
occurrence, producing `occurrences + 1` parts. -/
def pySplit (sep : Char) : Str → List Str
  | [] => [[]]
  | c :: cs =>
    if c = sep then [] :: pySplit sep cs
    else
      match pySplit sep cs with
      | [] => [[c]]
      | p :: ps => (c :: p) :: ps

/-- Python `str.lower()` (ASCII). -/
def pyLower (s : Str) : Str := s.map Char.toLower

/-- Python `\s` / `str.strip` whitespace at its ASCII meaning. -/
def pySpace (c : Char) : Bool :=
  c = ' ' || c = '\t' || c = '\n' || c = '\r' || c = '\x0b' || c = '\x0c'

/-- Python `str.strip()`. -/
def pyStrip (s : Str) : Str :=
  ((s.dropWhile pySpace).reverse.dropWhile pySpace).reverse

/-- Whether `w` is a leading piece of `s`. -/
def isPre : Str → Str → Bool
  | [], _ => true
  | _ :: _, [] => false
  | c :: w, d :: s => c == d && isPre w s

/-- Python substring membership `w in s`. -/
def pyIn (w : Str) : Str → Bool
  | [] => isPre w []
  | s@(_ :: s') => isPre w s || pyIn w s'

/-- `w` occurs as a contiguous substring of `s`. -/
def SubStr (w s : Str) : Prop := ∃ p q, s = p ++ w ++ q

theorem isPre_iff {w s : Str} : isPre w s = true ↔ ∃ q, s = w ++ q := by
  induction w generalizing s with
  | nil => simp [isPre]
  | cons c w ih =>
    cases s with
    | nil => simp [isPre]
    | cons d s =>
      simp only [isPre, Bool.and_eq_true, beq_iff_eq]
      constructor
      · rintro ⟨rfl, h⟩
        obtain ⟨q, rfl⟩ := ih.mp h
        exact ⟨q, rfl⟩
      · rintro ⟨q, h⟩
        rw [List.cons_append] at h
        injection h with h1 h2
        exact ⟨h1.symm, ih.mpr ⟨q, h2⟩⟩

theorem pyIn_iff {w s : Str} : pyIn w s = true ↔ SubStr w s := by
  induction s with
  | nil =>
    simp only [pyIn, SubStr]
    rw [isPre_iff]
    constructor
    · rintro ⟨q, h⟩
      exact ⟨[], q, by simpa using h⟩
    · rintro ⟨p, q, h⟩
      exact ⟨q, by
        have hp : p = [] := by
          cases p with
          | nil => rfl
          | cons a b => simp at h
        subst hp; simpa using h⟩
  | cons d s ih =>
    simp only [pyIn, Bool.or_eq_true]
    constructor
    · rintro (h | h)
      · obtain ⟨q, hq⟩ := isPre_iff.mp h
        exact ⟨[], q, by simpa using hq⟩
      · obtain ⟨p, q, hq⟩ := ih.mp h
        exact ⟨d :: p, q, by simp [hq]⟩
    · rintro ⟨p, q, hq⟩
      cases p with
      | nil =>
        left; exact isPre_iff.mpr ⟨q, by simpa using hq⟩
      | cons a p =>
        right
        rw [List.cons_append, List.cons_append] at hq
        have : s = p ++ w ++ q := by
          have := List.tail_eq_of_cons_eq hq
          simpa using this
        exact ih.mpr ⟨p, q, this⟩

instance (w s : Str) : Decidable (SubStr w s) := decidable_of_iff _ pyIn_iff

/-! ## The regex engine -/

/-- Regex abstract syntax covering every construct used by the repository's
patterns: single-character classes, concatenation, prioritized alternation,
greedy bounded/unbounded repetition of a character class, the zero-width word
boundary `\b`, and a capturing group. -/
inductive RE where
  | eps : RE
  | cclass (p : Char → Bool) : RE
  | cat (a b : RE) : RE
  | alt (a b : RE) : RE
  | rep (p : Char → Bool) (mn : Nat) (mx : Option Nat) : RE
  | wordB : RE
  | grp (r : RE) : RE

/-- A match result: total consumed length, and the span of capture group 1
(offsets relative to the match start), if any. -/
abbrev MRes := Nat × Option (Nat × Nat)

/-- Python `\w` at its ASCII meaning. -/
def wordChar (c : Char) : Bool := c.isAlphanum || c = '_'

/-- `\b` holds where exactly one neighbour is a word character. -/
def isBoundary (prev cur : Option Char) : Bool :=
  (match prev with | none => false | some c => wordChar c)
    != (match cur with | none => false | some c => wordChar c)

/-- Length of the maximal leading run of characters satisfying `p`. -/
def countRun (p : Char → Bool) : Str → Nat
  | [] => 0
  | c :: s => if p c then countRun p s + 1 else 0

/-- Lengths a greedy repetition of class `p` may consume, longest first. -/
def repLens (p : Char → Bool) (s : Str) (mn : Nat) (mx : Option Nat) : List Nat :=
  let hi := match mx with | none => countRun p s | some k => min k (countRun p s)
  (List.range (hi + 1 - mn)).map (fun j => hi - j)

/-- The character standing just before the position `n` characters into `s`
(used to evaluate `\b` after consuming `n` characters). -/
def prevAfter (prev : Option Char) (s : Str) (n : Nat) : Option Char :=
  if n = 0 then prev else s[n - 1]?

/-- All ways `re` can match a leading piece of `s` (with `prev` the character
just before `s`), in backtracking priority order: the head is the match the
Python engine commits to. -/
def matchList : RE → Option Char → Str → List MRes
  | .eps, _, _ => [(0, none)]
  | .cclass p, _, s =>
    match s with
    | [] => []
    | c :: _ => if p c then [(1, none)] else []
  | .wordB, prev, s => if isBoundary prev s.head? then [(0, none)] else []
  | .rep p mn mx, _, s => (repLens p s mn mx).map (fun n => (n, none))
  | .alt a b, prev, s => matchList a prev s ++ matchList b prev s
  | .grp r, prev, s => (matchList r prev s).map (fun m => (m.1, some (0, m.1)))
  | .cat a b, prev, s =>
    (matchList a prev s).flatMap (fun m1 =>
      (matchList b (prevAfter prev s m1.1) (s.drop m1.1)).map (fun m2 =>
        (m1.1 + m2.1,
          match m1.2 with
          | some g => some g
          | none => m2.2.map (fun g => (g.1 + m1.1, g.2 + m1.1)))))

/-- The character before position `i` of `text` (for `\b` at the match start). -/
def prevAt (text : Str) (i : Nat) : Option Char :=
  if i = 0 then none else text[i - 1]?

/-- The match Python's engine produces when anchoring `re` at position `i`. -/
def matchAt (re : RE) (text : Str) (i : Nat) : Option MRes :=
  (matchList re (prevAt text i) (text.drop i)).head?

/-- One scanning pass: from position `i`, emit each successive non-overlapping
match the way `re.finditer` does (advancing past each match, and by one
character after an empty match). -/
def scanPos (re : RE) (text : Str) : Nat → Nat → List (Nat × MRes)
  | 0, _ => []
  | fuel + 1, i =>
    if i > text.length then []
    else
      match matchAt re text i with
      | none => scanPos re text fuel (i + 1)
      | some m => (i, m) :: scanPos re text fuel (i + max m.1 1)

/-- Python `re.finditer(pattern, text)`: every non-overlapping match. -/
def finditer (re : RE) (text : Str) : List (Nat × MRes) :=
  scanPos re text (text.length + 1) 0

/-- Python `re.search(pattern, text)`: the leftmost match, if any. -/
def reSearch (re : RE) (text : Str) : Option (Nat × MRes) :=
  (finditer re text).head?

/-- The string group 1 captured (the whole match when no group participated),
for a match `m` anchored at position `i` of `text`. -/
def groupStr (text : Str) (i : Nat) (m : MRes) : Str :=
  match m.2 with
  | some g => pySlice text (i + g.1) (i + g.2)
  | none => pySlice text i (i + m.1)

/-- Python `re.findall(pattern, text)` for a pattern with one group: the list
of group-1 strings of the non-overlapping matches. -/
def findall1 (re : RE) (text : Str) : List Str :=
  (finditer re text).map (fun im => groupStr text im.1 im.2)

/-! ## The repository's regex patterns

All PII patterns are applied with `re.IGNORECASE` (pii_detector.py line 43)
and all security patterns carry an inline `(?i)`, so every literal is built
case-insensitively. -/

/-- A literal character under `re.IGNORECASE`. -/
def ciEq (a : Char) : Char → Bool := fun c => c.toLower = a.toLower

/-- A case-insensitive literal string, as a regex. -/
def litCI (w : String) : RE :=
  w.data.foldr (fun ch r => RE.cat (.cclass (ciEq ch)) r) .eps

/-- `\d` (ASCII). -/
def isDig (c : Char) : Bool := c.isDigit

/-- The class `[A-Za-z0-9._%+-]` (the local part of the email pattern). -/
def emailLocalC (c : Char) : Bool :=
  c.isAlpha || c.isDigit || c = '.' || c = '_' || c = '%' || c = '+' || c = '-'

/-- The class `[A-Za-z0-9.-]` (the domain part of the email pattern). -/
def emailDomC (c : Char) : Bool := c.isAlpha || c.isDigit || c = '.' || c = '-'

/-- The class `[A-Z|a-z]` (note the literal `|` inside the class, faithfully
reproduced from the source pattern). -/
def emailTldC (c : Char) : Bool := c.isAlpha || c = '|'

/-- `\b[A-Za-z0-9._%+-]+@[A-Za-z0-9.-]+\.[A-Z|a-z]{2,}\b` -/
def emailRE : RE :=
  .cat .wordB (.cat (.rep emailLocalC 1 none)
    (.cat (.cclass (· = '@')) (.cat (.rep emailDomC 1 none)
      (.cat (.cclass (· = '.')) (.cat (.rep emailTldC 2 none) .wordB)))))

/-- The class `[-.\s]` used as a phone-number separator. -/
def phoneSepC (c : Char) : Bool := c = '-' || c = '.' || pySpace c

/-- `\b(?:\+?1[-.\s]?)?\(?\d{3}\)?[-.\s]?\d{3}[-.\s]?\d{4}\b` -/
def phoneRE : RE :=
  .cat .wordB
    (.cat (.alt (.cat (.rep (· = '+') 0 (some 1))
                  (.cat (.cclass (· = '1')) (.rep phoneSepC 0 (some 1)))) .eps)
      (.cat (.rep (· = '(') 0 (some 1))
        (.cat (.rep isDig 3 (some 3))
          (.cat (.rep (· = ')') 0 (some 1))
            (.cat (.rep phoneSepC 0 (some 1))
              (.cat (.rep isDig 3 (some 3))
                (.cat (.rep phoneSepC 0 (some 1))
                  (.cat (.rep isDig 4 (some 4)) .wordB))))))))

/-- `\b\d{3}-\d{2}-\d{4}\b` -/
def ssnRE : RE :=
  .cat .wordB (.cat (.rep isDig 3 (some 3)) (.cat (.cclass (· = '-'))
    (.cat (.rep isDig 2 (some 2)) (.cat (.cclass (· = '-'))
      (.cat (.rep isDig 4 (some 4)) .wordB)))))

/-- The class `[-\s]` used as a credit-card separator. -/
def ccSepC (c : Char) : Bool := c = '-' || pySpace c

/-- `\b\d{4}[-\s]?\d{4}[-\s]?\d{4}[-\s]?\d{4}\b` -/
def creditCardRE : RE :=
  .cat .wordB (.cat (.rep isDig 4 (some 4)) (.cat (.rep ccSepC 0 (some 1))
    (.cat (.rep isDig 4 (some 4)) (.cat (.rep ccSepC 0 (some 1))
      (.cat (.rep isDig 4 (some 4)) (.cat (.rep ccSepC 0 (some 1))
        (.cat (.rep isDig 4 (some 4)) .wordB)))))))

/-- `\b(?:\d{1,3}\.){3}\d{1,3}\b` -/
def ipAddressRE : RE :=
  let oct := RE.cat (.rep isDig 1 (some 3)) (.cclass (· = '.'))
  .cat .wordB (.cat oct (.cat oct (.cat oct
    (.cat (.rep isDig 1 (some 3)) .wordB))))

/-- The date pattern: word boundary, 1-2 digits, a dash-or-slash class,
1-2 digits, a dash-or-slash class, 2-4 digits, word boundary. -/
def dateRE : RE :=
  let sep := RE.cclass (fun c => c = '-' || c = '/')
  .cat .wordB (.cat (.rep isDig 1 (some 2)) (.cat sep
    (.cat (.rep isDig 1 (some 2)) (.cat sep
      (.cat (.rep isDig 2 (some 4)) .wordB)))))

/-- The class `[A-Za-z0-9\s,]` in the address pattern. -/
def addrC (c : Char) : Bool := c.isAlpha || c.isDigit || pySpace c || c = ','

/-- The street-suffix alternation of the address pattern, in source order. -/
def addrSufRE : RE :=
  .alt (litCI "Street") (.alt (litCI "St") (.alt (litCI "Avenue")
    (.alt (litCI "Ave") (.alt (litCI "Road") (.alt (litCI "Rd")
      (.alt (litCI "Boulevard") (.alt (litCI "Blvd") (.alt (litCI "Lane")
        (.alt (litCI "Ln") (.alt (litCI "Drive") (litCI "Dr")))))))))))

/-- `\b\d+\s+[A-Za-z0-9\s,]+(?:Street|St|...|Drive|Dr)\b` -/
def addressRE : RE :=
  .cat .wordB (.cat (.rep isDig 1 none) (.cat (.rep pySpace 1 none)
    (.cat (.rep addrC 1 none) (.cat addrSufRE .wordB))))

/-! ## PIIDetector (src/cleansing/pii_detector.py) -/

/-- One entry of the list `detect_pii` returns: `{'type', 'value', 'start',
'end'}` (the Python key `end` is the field `stop` here). -/
structure Finding where
  kind : Str
  value : Str
  start : Nat
  stop : Nat
  deriving DecidableEq, Repr

/-- The `self.patterns` table, in its Python insertion order. -/
def piiPatterns : List (Str × RE) :=
  [(str "email", emailRE), (str "phone", phoneRE), (str "ssn", ssnRE),
   (str "credit_card", creditCardRE), (str "ip_address", ipAddressRE),
   (str "date", dateRE), (str "address", addressRE)]

/-- `PIIDetector.detect_pii`: for each pattern (in table order) append one
finding per `finditer` match, recording type, matched text and span. -/
def detect_pii (text : Str) : List Finding :=
  piiPatterns.foldl (fun acc pr =>
    acc ++ (finditer pr.2 text).map (fun im =>
      ⟨pr.1, pySlice text im.1 (im.1 + im.2.1), im.1, im.1 + im.2.1⟩)) []

/-- The per-type masked replacement computed inside `PIIDetector.mask_pii`. -/
def maskValue (maskChar : Str) (f : Finding) : Str :=
  if f.kind = str "email" then
    match pySplit '@' f.value with
    | [_, b] => pyMul maskChar 5 ++ '@' :: b
    | _ => pyMul maskChar f.value.length
  else if f.kind = str "ssn" ∨ f.kind = str "credit_card" then
    pyMul maskChar (f.value.length - 4) ++ takeLast 4 f.value
  else if f.kind = str "phone" then
    if 4 ≤ (f.value.filter isDig).length then
      pyMul maskChar (f.value.length - 4) ++ takeLast 4 f.value
    else
      pyMul maskChar f.value.length
  else
    pyMul maskChar f.value.length

/-- One entry of the `masked_items` list: `{'type', 'original', 'masked'}`. -/
structure MaskedItem where
  kind : Str
  original : Str
  masked : Str
  deriving DecidableEq, Repr

/-- Stable insertion into a list kept in descending `start` order (matching
Python's stable `list.sort(key=..., reverse=True)`). -/
def insertDesc (f : Finding) : List Finding → List Finding
  | [] => [f]
  | g :: gs => if f.start < g.start then g :: insertDesc f gs else f :: g :: gs

/-- `findings.sort(key=lambda x: x['start'], reverse=True)`: stable sort by
start offset, descending. -/
def sortDesc (l : List Finding) : List Finding := l.foldr insertDesc []

/-- Textual replacement `t[:a] + mv + t[b:]`. -/
def spliceStr (t : Str) (a b : Nat) (mv : Str) : Str :=
  t.take a ++ mv ++ t.drop b

/-- The loop body of `mask_pii`: splice the masked value into the working
text at the finding's original span, and append the audit record. -/
def maskStep (maskChar : Str) (acc : Str × List MaskedItem) (f : Finding) :
    Str × List MaskedItem :=
  let mv := maskValue maskChar f
  (spliceStr acc.1 f.start f.stop mv, acc.2 ++ [⟨f.kind, f.value, mv⟩])

/-- `PIIDetector.mask_pii`: detect, sort findings by start descending, then
fold the replacement loop over them starting from the unmodified text. -/
def mask_pii (text : Str) (maskChar : Str) : Str × List MaskedItem :=
  (sortDesc (detect_pii text)).foldl (maskStep maskChar) (text, [])

/-! ## SecurityAnalyzer (src/analysis/security_analyzer.py) -/

/-- One entry of `results['policies']`: `{'component', 'values'}`. -/
structure IamPolicyEntry where
  component : Str
  values : List Str
  deriving DecidableEq, Repr

/-- `results['summary']` of `analyze_iam_policy` once populated. -/
structure IamSummary where
  total_components_found : Nat
  has_allow_effect : Bool
  has_deny_effect : Bool
  deriving DecidableEq, Repr

/-- The result of `analyze_iam_policy`; `summary = none` models the initial
empty dict `{}`. -/
structure IamResult where
  found : Bool
  policies : List IamPolicyEntry
  summary : Option IamSummary
  deriving DecidableEq, Repr

/-- The double-quote character class used by the IAM patterns. -/
def dqC : RE := .cclass (· = '"')

/-- `\s*` -/
def ws0 : RE := .rep pySpace 0 none

/-- The shared shape of the IAM field patterns: a case-insensitive quoted key,
optional space, a colon, optional space, then a quoted captured value. -/
def iamFieldRE (key : String) (valRE : RE) : RE :=
  .cat dqC (.cat (litCI key) (.cat dqC (.cat ws0 (.cat (.cclass (· = ':'))
    (.cat ws0 (.cat dqC (.cat (.grp valRE) dqC)))))))

/-- The pattern for the quoted IAM effect value: `(Allow|Deny)`. -/
def effectRE : RE := iamFieldRE "Effect" (.alt (litCI "Allow") (litCI "Deny"))

/-- The value class of the action/resource/principal patterns: one or more
characters other than a double quote. -/
def notDqRun : RE := .rep (fun c => !(c = '"')) 1 none

/-- The `self.patterns['iam_policy']` table, in its Python insertion order. -/
def iamFieldPatterns : List (Str × RE) :=
  [(str "effect", effectRE),
   (str "action", iamFieldRE "Action" notDqRun),
   (str "resource", iamFieldRE "Resource" notDqRun),
   (str "principal", iamFieldRE "Principal" notDqRun)]

/-- The `iam_indicators` list (checked case-sensitively). -/
def iamIndicators : List Str :=
  [str "Effect", str "Action", str "Resource", str "Statement", str "Principal"]

/-- One hexadecimal digit, lowercase, as Python prints it in `\xNN`. -/
def hexDig (n : Nat) : Char :=
  if n < 10 then Char.ofNat (48 + n) else Char.ofNat (87 + n)

/-- Whether Python's `repr` of a string escapes the character `c` when the
enclosing quote is `q`: backslash, the quote itself, and the C0 controls
(printed as a named escape or `\xNN`). -/
def isSpec (q c : Char) : Bool :=
  c = '\\' || c = q || c = '\n' || c = '\r' || c = '\t'
    || decide (c.toNat < 32) || c = '\x7f'

/-- How Python's `repr` prints one character inside a string quoted by `q`. -/
def escChar (q c : Char) : Str :=
  if c = '\\' then ['\\', '\\']
  else if c = q then ['\\', q]
  else if c = '\n' then ['\\', 'n']
  else if c = '\r' then ['\\', 'r']
  else if c = '\t' then ['\\', 't']
  else if c.toNat < 32 || c = '\x7f' then
    ['\\', 'x', hexDig (c.toNat / 16), hexDig (c.toNat % 16)]
  else [c]

/-- The body of Python's string `repr` (each character escaped). -/
def escStr (q : Char) (s : Str) : Str := s.flatMap (escChar q)

/-- The quote Python's string `repr` picks: a double quote when the string
holds a single quote but no double quote, a single quote otherwise. -/
def reprQuote (s : Str) : Char :=
  if s.contains '\x27' && !(s.contains '"') then '"' else '\x27'

/-- Python `repr` of a string (ASCII-faithful). -/
def pyReprStr (s : Str) : Str :=
  reprQuote s :: escStr (reprQuote s) s ++ [reprQuote s]

/-- Python's `", ".join` over already-rendered pieces. -/
def joinSep (sep : Str) : List Str → Str
  | [] => []
  | [v] => v
  | v :: w :: vs => v ++ sep ++ joinSep sep (w :: vs)

/-- Python `repr` of a list of strings. -/
def pyListRepr (vs : List Str) : Str :=
  str "[" ++ joinSep (str ", ") (vs.map pyReprStr) ++ str "]"

/-- Python `str(p)` for a policy dict `p`: the dict `repr`, with its two keys
in insertion order. -/
def pyStrPolicy (p : IamPolicyEntry) : Str :=
  str "\x7b\x27component\x27: " ++ pyReprStr p.component
    ++ str ", \x27values\x27: " ++ pyListRepr p.values ++ str "\x7d"

/-- `SecurityAnalyzer.analyze_iam_policy`. -/
def analyze_iam_policy (text : Str) : IamResult :=
  if !(iamIndicators.any (fun ind => pyIn ind text)) then ⟨false, [], none⟩
  else
    let policies := iamFieldPatterns.foldl (fun acc pr =>
      let ms := findall1 pr.2 text
      if ms.isEmpty then acc else acc ++ [⟨pr.1, ms⟩]) []
    ⟨true, policies,
      some ⟨policies.length,
        policies.any (fun p => pyIn (str "Allow") (pyStrPolicy p)),
        policies.any (fun p => pyIn (str "Deny") (pyStrPolicy p))⟩⟩

/-- One entry of `results['rules']` in `analyze_firewall_rules`: the two fixed
keys plus one optional slot per field pattern. -/
structure FwRule where
  line_number : Nat
  content : Str
  rule_number : Option Str
  action : Option Str
  protocol : Option Str
  port : Option Str
  source_ip : Option Str
  dest_ip : Option Str
  deriving DecidableEq, Repr

/-- `results['summary']` of `analyze_firewall_rules` once populated. -/
structure FwSummary where
  total_rules : Nat
  allow_rules : Nat
  deny_rules : Nat
  protocols_used : List Str
  deriving DecidableEq, Repr

/-- The result of `analyze_firewall_rules`; `summary = none` models `{}`. -/
structure FwResult where
  found : Bool
  rules : List FwRule
  summary : Option FwSummary
  deriving DecidableEq, Repr

/-- `rule\s+#?(\d+)` (case-insensitive). -/
def fwRuleNumRE : RE :=
  .cat (litCI "rule") (.cat (.rep pySpace 1 none)
    (.cat (.rep (· = '#') 0 (some 1)) (.grp (.rep isDig 1 none))))

/-- `(allow|deny|drop|reject|accept)` (case-insensitive). -/
def fwActionRE : RE :=
  .grp (.alt (litCI "allow") (.alt (litCI "deny") (.alt (litCI "drop")
    (.alt (litCI "reject") (litCI "accept")))))

/-- `(tcp|udp|icmp|ip|any)` (case-insensitive). -/
def fwProtocolRE : RE :=
  .grp (.alt (litCI "tcp") (.alt (litCI "udp") (.alt (litCI "icmp")
    (.alt (litCI "ip") (litCI "any")))))

/-- A port number with an optional dashed range: the group of the port
pattern. -/
def fwPortNumRE : RE :=
  .cat (.rep isDig 1 none)
    (.alt (.cat (.cclass (· = '-')) (.rep isDig 1 none)) .eps)

/-- `port[s]?\s+(...)` (case-insensitive). -/
def fwPortRE : RE :=
  .cat (litCI "port") (.cat (.rep (ciEq 's') 0 (some 1))
    (.cat (.rep pySpace 1 none) (.grp fwPortNumRE)))

/-- A dotted quad with an optional CIDR suffix: the group of the two IP
patterns. -/
def fwIpCidrRE : RE :=
  let oct := RE.rep isDig 1 (some 3)
  let dot := RE.cclass (· = '.')
  .cat oct (.cat dot (.cat oct (.cat dot (.cat oct (.cat dot
    (.cat oct (.alt (.cat (.cclass (· = '/')) (.rep isDig 1 (some 2))) .eps)))))))

/-- `(?:source|src|from)\s+(...)` (case-insensitive). -/
def fwSourceIpRE : RE :=
  .cat (.alt (litCI "source") (.alt (litCI "src") (litCI "from")))
    (.cat (.rep pySpace 1 none) (.grp fwIpCidrRE))

/-- `(?:destination|dest|dst|to)\s+(...)` (case-insensitive). -/
def fwDestIpRE : RE :=
  .cat (.alt (litCI "destination") (.alt (litCI "dest")
      (.alt (litCI "dst") (litCI "to"))))
    (.cat (.rep pySpace 1 none) (.grp fwIpCidrRE))

/-- `re.search` followed by `match.group(1) if match.lastindex else
match.group(0)` (line 112 of the source). -/
def fwField (re : RE) (line : Str) : Option Str :=
  match reSearch re line with
  | none => none
  | some im => some (groupStr line im.1 im.2)

/-- The per-line extraction loop body of `analyze_firewall_rules`. -/
def fwRuleOfLine (lineNum : Nat) (line : Str) : FwRule :=
  ⟨lineNum, pyStrip line, fwField fwRuleNumRE line, fwField fwActionRE line,
   fwField fwProtocolRE line, fwField fwPortRE line,
   fwField fwSourceIpRE line, fwField fwDestIpRE line⟩

/-- `len(rule_data) > 2`: at least one field pattern matched the line. -/
def fwRuleHasField (r : FwRule) : Bool :=
  r.rule_number.isSome || r.action.isSome || r.protocol.isSome
    || r.port.isSome || r.source_ip.isSome || r.dest_ip.isSome

/-- The `firewall_indicators` list. -/
def fwIndicators : List Str :=
  [str "rule", str "firewall", str "allow", str "deny", str "port",
   str "protocol"]

/-- `r.get('action', '').lower()` for the summary counts. -/
def fwActionLower (r : FwRule) : Str :=
  match r.action with
  | none => []
  | some a => pyLower a

/-- `SecurityAnalyzer.analyze_firewall_rules`. -/
def analyze_firewall_rules (text : Str) : FwResult :=
  if !(fwIndicators.any (fun ind => pyIn (pyLower ind) (pyLower text))) then
    ⟨false, [], none⟩
  else
    let lines := pySplit '\n' text
    let rules := ((List.range lines.length).zip lines).filterMap
      (fun il => let r := fwRuleOfLine (il.1 + 1) il.2
                 if fwRuleHasField r then some r else none)
    if rules.isEmpty then ⟨true, rules, none⟩
    else
      ⟨true, rules,
        some ⟨rules.length,
          (rules.filter (fun r =>
            fwActionLower r = str "allow" || fwActionLower r = str "accept")).length,
          (rules.filter (fun r =>
            fwActionLower r = str "deny" || fwActionLower r = str "drop"
              || fwActionLower r = str "reject")).length,
          ((rules.filterMap (fun r => r.protocol)).map pyLower).dedup⟩⟩

/-! ## Engine lemmas -/

theorem countRun_le_length (p : Char → Bool) (s : Str) : countRun p s ≤ s.length := by
  induction s with
  | nil => simp [countRun]
  | cons c s ih =>
    simp only [countRun, List.length_cons]
    split <;> omega

theorem countRun_take {p : Char → Bool} {s : Str} {k : Nat}
    (hk : k ≤ countRun p s) : ∀ c ∈ s.take k, p c = true := by
  induction s generalizing k with
  | nil => simp
  | cons c s ih =>
    cases k with
    | zero => simp
    | succ k =>
      simp only [countRun] at hk
      split at hk
      · next hpc =>
        intro d hd
        simp only [List.take_succ_cons, List.mem_cons] at hd
        rcases hd with rfl | hd
        · exact hpc
        · exact ih (by omega) d hd
      · omega

theorem repLens_mem {p : Char → Bool} {s : Str} {mn : Nat} {mx : Option Nat}
    {n : Nat} (h : n ∈ repLens p s mn mx) :
    mn ≤ n ∧ n ≤ countRun p s ∧ ∀ k, mx = some k → n ≤ k := by
  simp only [repLens, List.mem_map, List.mem_range] at h
  obtain ⟨j, hj, rfl⟩ := h
  cases mx with
  | none => simp only at hj ⊢; refine ⟨by omega, by omega, by simp⟩
  | some k =>
    simp only at hj ⊢
    refine ⟨by omega, by omega, ?_⟩
    rintro k' ⟨rfl⟩
    omega

theorem matchList_le {re : RE} {prev : Option Char} {s : Str} {m : MRes}
    (h : m ∈ matchList re prev s) : m.1 ≤ s.length := by
  induction re generalizing prev s m with
  | eps => simp only [matchList, List.mem_singleton] at h; simp [h]
  | cclass p =>
    simp only [matchList] at h
    cases s with
    | nil => simp at h
    | cons c t =>
      split at h <;> simp_all
  | wordB =>
    simp only [matchList] at h
    split at h <;> simp_all
  | rep p mn mx =>
    simp only [matchList, List.mem_map] at h
    obtain ⟨n, hn, rfl⟩ := h
    exact le_trans (repLens_mem hn).2.1 (countRun_le_length p s)
  | alt a b iha ihb =>
    simp only [matchList, List.mem_append] at h
    rcases h with h | h
    · exact iha h
    · exact ihb h
  | grp r ih =>
    simp only [matchList, List.mem_map] at h
    obtain ⟨m', hm', rfl⟩ := h
    have h' := ih hm'
    exact h'
  | cat a b iha ihb =>
    simp only [matchList, List.mem_flatMap, List.mem_map] at h
    obtain ⟨m1, hm1, m2, hm2, rfl⟩ := h
    have h1 := iha hm1
    have h2 := ihb hm2
    simp only [List.length_drop] at h2
    simp only
    omega

/-- The least number of characters a regex can consume. -/
def minLen : RE → Nat
  | .eps => 0
  | .cclass _ => 1
  | .wordB => 0
  | .rep _ mn _ => mn
  | .alt a b => min (minLen a) (minLen b)
  | .grp r => minLen r
  | .cat a b => minLen a + minLen b

theorem matchList_minLen {re : RE} {prev : Option Char} {s : Str} {m : MRes}
    (h : m ∈ matchList re prev s) : minLen re ≤ m.1 := by
  induction re generalizing prev s m with
  | eps => simp only [matchList, List.mem_singleton] at h; simp [h, minLen]
  | cclass p =>
    simp only [matchList] at h
    cases s with
    | nil => simp at h
    | cons c t => split at h <;> simp_all [minLen]
  | wordB =>
    simp only [matchList] at h
    split at h <;> simp_all [minLen]
  | rep p mn mx =>
    simp only [matchList, List.mem_map] at h
    obtain ⟨n, hn, rfl⟩ := h
    exact (repLens_mem hn).1
  | alt a b iha ihb =>
    simp only [matchList, List.mem_append] at h
    simp only [minLen]
    rcases h with h | h
    · exact le_trans (min_le_left _ _) (iha h)
    · exact le_trans (min_le_right _ _) (ihb h)
  | grp r ih =>
    simp only [matchList, List.mem_map] at h
    obtain ⟨m', hm', rfl⟩ := h
    have h' := ih hm'
    exact h'
  | cat a b iha ihb =>
    simp only [matchList, List.mem_flatMap, List.mem_map] at h
    obtain ⟨m1, hm1, m2, hm2, rfl⟩ := h
    have h1 := iha hm1
    have h2 := ihb hm2
    simp only [minLen]
    omega

theorem matchList_cat_ex {a b : RE} {prev : Option Char} {s : Str} {m : MRes}
    (h : m ∈ matchList (.cat a b) prev s) :
    ∃ m1 m2 : MRes, m1 ∈ matchList a prev s ∧
      m2 ∈ matchList b (prevAfter prev s m1.1) (s.drop m1.1) ∧
      m.1 = m1.1 + m2.1 := by
  simp only [matchList, List.mem_flatMap, List.mem_map] at h
  obtain ⟨m1, hm1, m2, hm2, rfl⟩ := h
  exact ⟨m1, m2, hm1, hm2, rfl⟩

theorem matchList_alt_ex {a b : RE} {prev : Option Char} {s : Str} {m : MRes}
    (h : m ∈ matchList (.alt a b) prev s) :
    m ∈ matchList a prev s ∨ m ∈ matchList b prev s := by
  simpa [matchList] using h

theorem matchList_cclass_ex {p : Char → Bool} {prev : Option Char} {s : Str}
    {m : MRes} (h : m ∈ matchList (.cclass p) prev s) :
    m.1 = 1 ∧ ∃ c t, s = c :: t ∧ p c = true := by
  cases s with
  | nil => simp [matchList] at h
  | cons c t =>
    by_cases hp : p c
    · simp only [matchList, hp, if_true, List.mem_singleton] at h
      exact ⟨by simp [h], c, t, rfl, hp⟩
    · simp [matchList, hp] at h

theorem matchList_rep_ex {p : Char → Bool} {mn : Nat} {mx : Option Nat}
    {prev : Option Char} {s : Str} {m : MRes}
    (h : m ∈ matchList (.rep p mn mx) prev s) :
    mn ≤ m.1 ∧ (∀ c ∈ s.take m.1, p c = true) ∧ ∀ k, mx = some k → m.1 ≤ k := by
  simp only [matchList, List.mem_map] at h
  obtain ⟨n, hn, rfl⟩ := h
  obtain ⟨h1, h2, h3⟩ := repLens_mem hn
  exact ⟨h1, countRun_take h2, h3⟩

theorem matchList_wordB_ex {prev : Option Char} {s : Str} {m : MRes}
    (h : m ∈ matchList .wordB prev s) : m.1 = 0 := by
  simp only [matchList] at h
  split at h <;> simp_all

theorem matchList_grp_ex {r : RE} {prev : Option Char} {s : Str} {m : MRes}
    (h : m ∈ matchList (.grp r) prev s) :
    ∃ m' : MRes, m' ∈ matchList r prev s ∧ m.1 = m'.1 := by
  simp only [matchList, List.mem_map] at h
  obtain ⟨m', hm', rfl⟩ := h
  exact ⟨m', hm', rfl⟩

theorem head?_mem {α} {l : List α} {a : α} (h : l.head? = some a) : a ∈ l := by
  cases l with
  | nil => simp at h
  | cons b t => simp only [List.head?_cons, Option.some.injEq] at h; simp [h]

theorem scanPos_mem {re : RE} {text : Str} {fuel i : Nat} {im : Nat × MRes}
    (h : im ∈ scanPos re text fuel i) :
    im.1 ≤ text.length ∧ im.2 ∈ matchList re (prevAt text im.1) (text.drop im.1) := by
  induction fuel generalizing i with
  | zero => simp [scanPos] at h
  | succ fuel ih =>
    simp only [scanPos] at h
    split at h
    · simp at h
    · next hle =>
      split at h
      · exact ih h
      · next m hm =>
        simp only [List.mem_cons] at h
        rcases h with rfl | h
        · exact ⟨by omega, head?_mem hm⟩
        · exact ih h

theorem finditer_mem {re : RE} {text : Str} {im : Nat × MRes}
    (h : im ∈ finditer re text) :
    im.1 ≤ text.length ∧ im.2 ∈ matchList re (prevAt text im.1) (text.drop im.1) :=
  scanPos_mem h

/-! ## Lemmas about the PII scanner -/

theorem mem_foldl_append {α β} (g : β → List α) (l : List β) (acc : List α) (x : α) :
    x ∈ l.foldl (fun a b => a ++ g b) acc ↔ x ∈ acc ∨ ∃ b ∈ l, x ∈ g b := by
  induction l generalizing acc with
  | nil => simp
  | cons b l ih =>
    simp only [List.foldl_cons, ih, List.mem_append, List.mem_cons, or_assoc]
    constructor
    · rintro (h | h | ⟨b', hb', hx⟩)
      · exact Or.inl h
      · exact Or.inr ⟨b, Or.inl rfl, h⟩
      · exact Or.inr ⟨b', Or.inr hb', hx⟩
    · rintro (h | ⟨b', hb' | hb', hx⟩)
      · exact Or.inl h
      · subst hb'; exact Or.inr (Or.inl hx)
      · exact Or.inr (Or.inr ⟨b', hb', hx⟩)

theorem mem_detect_pii {text : Str} {f : Finding} (hf : f ∈ detect_pii text) :
    ∃ pr ∈ piiPatterns, ∃ im ∈ finditer pr.2 text,
      f = ⟨pr.1, pySlice text im.1 (im.1 + im.2.1), im.1, im.1 + im.2.1⟩ := by
  rw [detect_pii, mem_foldl_append] at hf
  rcases hf with h | ⟨pr, hpr, hx⟩
  · simp at h
  · obtain ⟨im, him, rfl⟩ := List.mem_map.mp hx
    exact ⟨pr, hpr, im, him, rfl⟩

theorem insertDesc_perm (f : Finding) (l : List Finding) :
    (insertDesc f l).Perm (f :: l) := by
  induction l with
  | nil => exact List.Perm.refl _
  | cons g gs ih =>
    simp only [insertDesc]
    split
    · exact (ih.cons g).trans (List.Perm.swap f g gs)
    · exact List.Perm.refl _

theorem sortDesc_perm (l : List Finding) : (sortDesc l).Perm l := by
  induction l with
  | nil => exact List.Perm.refl _
  | cons f l ih =>
    show (insertDesc f (sortDesc l)).Perm _
    exact (insertDesc_perm f (sortDesc l)).trans (ih.cons f)

theorem insertDesc_sorted {f : Finding} {l : List Finding}
    (h : l.Sorted (fun a b => b.start ≤ a.start)) :
    (insertDesc f l).Sorted (fun a b => b.start ≤ a.start) := by
  induction l with
  | nil => simp [insertDesc]
  | cons g gs ih =>
    rw [List.sorted_cons] at h
    obtain ⟨hg, hgs⟩ := h
    simp only [insertDesc]
    split
    · next hlt =>
      rw [List.sorted_cons]
      refine ⟨?_, ih hgs⟩
      intro b hb
      rcases List.mem_cons.mp ((insertDesc_perm f gs).mem_iff.mp hb) with rfl | hbgs
      · omega
      · exact hg b hbgs
    · next hge =>
      rw [List.sorted_cons]
      refine ⟨?_, List.sorted_cons.mpr ⟨hg, hgs⟩⟩
      intro b hb
      rcases List.mem_cons.mp hb with rfl | hbgs
      · omega
      · have := hg b hbgs; omega

theorem sortDesc_sorted (l : List Finding) :
    (sortDesc l).Sorted (fun a b => b.start ≤ a.start) := by
  induction l with
  | nil => simp [sortDesc]
  | cons f l ih => exact insertDesc_sorted ih

/-- The reconstruction described by the spec: starting from the unmodified
input, splice each masked value into the span of its originating finding, in
the given processing order. -/
def applyMaskedItems (text : Str) (items : List (Finding × Str)) : Str :=
  items.foldl (fun t fm => spliceStr t fm.1.start fm.1.stop fm.2) text

theorem maskStep_foldl (mc : Str) (l : List Finding) (t : Str)
    (items : List MaskedItem) :
    l.foldl (maskStep mc) (t, items) =
      (applyMaskedItems t (l.map (fun f => (f, maskValue mc f))),
        items ++ l.map (fun f => ⟨f.kind, f.value, maskValue mc f⟩)) := by
  induction l generalizing t items with
  | nil => simp [applyMaskedItems]
  | cons f l ih =>
    simp only [List.foldl_cons, List.map_cons, maskStep, applyMaskedItems] at *
    rw [ih]
    simp

theorem mem_mask_items {text mc : Str} {f : Finding} (hf : f ∈ detect_pii text) :
    (⟨f.kind, f.value, maskValue mc f⟩ : MaskedItem) ∈ (mask_pii text mc).2 := by
  rw [mask_pii, maskStep_foldl]
  simp only [List.nil_append, List.mem_map]
  exact ⟨f, (sortDesc_perm (detect_pii text)).mem_iff.mpr hf, rfl⟩

/-- Claim C1: `mask_pii` processes the findings of `detect_pii` in descending
order of start offset (the processing list is a permutation of the findings,
sorted by start descending), and the returned masked text equals the result of
taking the unmodified input and splicing each MaskedItem's masked value into
the span of its originating finding, processed highest-offset-first. -/
theorem mask_pii_reverse_order_splice (text mc : Str) :
    (sortDesc (detect_pii text)).Perm (detect_pii text) ∧
    (sortDesc (detect_pii text)).Sorted (fun f g => g.start ≤ f.start) ∧
    (mask_pii text mc).2 =
      (sortDesc (detect_pii text)).map
        (fun f => (⟨f.kind, f.value, maskValue mc f⟩ : MaskedItem)) ∧
    (mask_pii text mc).1 =
      applyMaskedItems text
        ((sortDesc (detect_pii text)).map (fun f => (f, maskValue mc f))) := by
  refine ⟨sortDesc_perm _, sortDesc_sorted _, ?_, ?_⟩
  · rw [mask_pii, maskStep_foldl]; simp
  · rw [mask_pii, maskStep_foldl]

/-- Claim C4: when `detect_pii` finds nothing, `mask_pii` returns the input
unchanged and an empty MaskedItem list. -/
theorem mask_pii_no_findings (text mc : Str) (h : detect_pii text = []) :
    mask_pii text mc = (text, []) := by
  rw [mask_pii, h]
  rfl

/-- Witness for C4 at the empty string. -/
theorem mask_pii_no_findings_witness :
    detect_pii (str "") = [] ∧ mask_pii (str "") (str "*") = (str "", []) :=
  ⟨by decide, mask_pii_no_findings (str "") (str "*") (by decide)⟩

/-- Claim C8: every finding of `detect_pii` has `0 ≤ start < stop ≤ len text`
and its value is exactly the slice of the input at that span. -/
theorem detect_pii_offset_invariant (text : Str) (f : Finding)
    (hf : f ∈ detect_pii text) :
    f.start < f.stop ∧ f.stop ≤ text.length ∧
      f.value = pySlice text f.start f.stop := by
  obtain ⟨pr, hpr, im, him, rfl⟩ := mem_detect_pii hf
  obtain ⟨hi, hm⟩ := finditer_mem him
  have hle := matchList_le hm
  have hmin := matchList_minLen hm
  have hpat : 1 ≤ minLen pr.2 := by
    have hall : ∀ q ∈ piiPatterns, 1 ≤ minLen q.2 := by decide
    exact hall pr hpr
  simp only [List.length_drop] at hle
  refine ⟨?_, ?_, rfl⟩
  · show im.1 < im.1 + im.2.1
    omega
  · show im.1 + im.2.1 ≤ text.length
    omega

/-- Witness for C8 at a concrete email finding. -/
theorem detect_pii_offset_invariant_witness :
    ((⟨str "email", str "a@b.co", 0, 6⟩ : Finding) ∈ detect_pii (str "a@b.co")) ∧
    ((⟨str "email", str "a@b.co", 0, 6⟩ : Finding).start <
        (⟨str "email", str "a@b.co", 0, 6⟩ : Finding).stop ∧
      (⟨str "email", str "a@b.co", 0, 6⟩ : Finding).stop ≤ (str "a@b.co").length ∧
      (⟨str "email", str "a@b.co", 0, 6⟩ : Finding).value =
        pySlice (str "a@b.co") (⟨str "email", str "a@b.co", 0, 6⟩ : Finding).start
          (⟨str "email", str "a@b.co", 0, 6⟩ : Finding).stop) :=
  ⟨by decide, detect_pii_offset_invariant (str "a@b.co") _ (by decide)⟩

theorem pyMul_single (c : Char) (n : Nat) : pyMul [c] n = List.replicate n c := by
  induction n with
  | zero => rfl
  | succ n ih =>
    unfold pyMul at ih ⊢
    rw [List.replicate_succ, List.flatten_cons, ih, List.replicate_succ]
    rfl

theorem mask_last4_shape (v : Str) :
    (pyMul (str "*") (v.length - 4) ++ takeLast 4 v).length = v.length ∧
    takeLast 4 (pyMul (str "*") (v.length - 4) ++ takeLast 4 v) = takeLast 4 v ∧
    ∀ c ∈ (pyMul (str "*") (v.length - 4) ++ takeLast 4 v).take (v.length - 4),
      c = '*' := by
  have hstar : str "*" = ['*'] := rfl
  rw [hstar, pyMul_single]
  have hlen : (List.replicate (v.length - 4) '*' ++ takeLast 4 v).length = v.length := by
    simp only [List.length_append, List.length_replicate, takeLast, List.length_drop]
    omega
  refine ⟨hlen, ?_, ?_⟩
  · show (List.replicate (v.length - 4) '*' ++ takeLast 4 v).drop
        ((List.replicate (v.length - 4) '*' ++ takeLast 4 v).length - 4) = takeLast 4 v
    rw [hlen]
    exact List.drop_left' (by rw [List.length_replicate])
  · intro c hc
    rw [List.take_left' (by rw [List.length_replicate])] at hc
    exact List.eq_of_mem_replicate hc

/-- Claim C2: for an ssn, credit-card, or at-least-4-digit phone finding, the
masked value recorded by `mask_pii` (default mask character) keeps the length,
keeps the last 4 characters, and fills everything before them with `*`. -/
theorem mask_pii_last4_policy (text : Str) (f : Finding)
    (hf : f ∈ detect_pii text)
    (hk : f.kind = str "ssn" ∨ f.kind = str "credit_card" ∨
      (f.kind = str "phone" ∧ 4 ≤ (f.value.filter isDig).length)) :
    (⟨f.kind, f.value, maskValue (str "*") f⟩ : MaskedItem) ∈
        (mask_pii text (str "*")).2 ∧
    (maskValue (str "*") f).length = f.value.length ∧
    takeLast 4 (maskValue (str "*") f) = takeLast 4 f.value ∧
    ∀ c ∈ (maskValue (str "*") f).take (f.value.length - 4), c = '*' := by
  have hmv : maskValue (str "*") f =
      pyMul (str "*") (f.value.length - 4) ++ takeLast 4 f.value := by
    rcases hk with hk | hk | ⟨hk, hd⟩
    · simp only [maskValue]
      rw [if_neg (by rw [hk]; decide), if_pos (Or.inl hk)]
    · simp only [maskValue]
      rw [if_neg (by rw [hk]; decide), if_pos (Or.inr hk)]
    · simp only [maskValue]
      rw [if_neg (by rw [hk]; decide), if_neg (by rw [hk]; decide),
        if_pos hk, if_pos hd]
  obtain ⟨h1, h2, h3⟩ := mask_last4_shape f.value
  rw [hmv]
  exact ⟨by rw [← hmv]; exact mem_mask_items hf, h1, h2, h3⟩

/-- Witness for C2 at a concrete ssn finding. -/
theorem mask_pii_last4_policy_witness :
    ((⟨str "ssn", str "123-45-6789", 0, 11⟩ : Finding) ∈
        detect_pii (str "123-45-6789")) ∧
    ((⟨str "ssn", str "123-45-6789", 0, 11⟩ : Finding).kind = str "ssn" ∨
      (⟨str "ssn", str "123-45-6789", 0, 11⟩ : Finding).kind = str "credit_card" ∨
      ((⟨str "ssn", str "123-45-6789", 0, 11⟩ : Finding).kind = str "phone" ∧
        4 ≤ (((⟨str "ssn", str "123-45-6789", 0, 11⟩ : Finding).value.filter isDig)).length)) ∧
    (maskValue (str "*") ⟨str "ssn", str "123-45-6789", 0, 11⟩).length =
      (str "123-45-6789").length ∧
    takeLast 4 (maskValue (str "*") ⟨str "ssn", str "123-45-6789", 0, 11⟩) =
      takeLast 4 (str "123-45-6789") :=
  ⟨by decide, by decide,
    (mask_pii_last4_policy (str "123-45-6789") _ (by decide) (by decide)).2.1,
    (mask_pii_last4_policy (str "123-45-6789") _ (by decide) (by decide)).2.2.1⟩

/-! ## Digit-count and shape lemmas for matched values -/

theorem rep_digit_bound {mn : Nat} {mx : Option Nat} {prev : Option Char}
    {s : Str} {m : MRes} (h : m ∈ matchList (.rep isDig mn mx) prev s) :
    mn ≤ ((s.take m.1).filter isDig).length := by
  obtain ⟨h1, h2, _⟩ := matchList_rep_ex h
  rw [List.filter_eq_self.mpr h2, List.length_take]
  have := matchList_le h
  omega

theorem cat_digit_bound {a b : RE} {prev : Option Char} {s : Str} {m : MRes}
    (h : m ∈ matchList (.cat a b) prev s) (ka kb : Nat)
    (Ha : ∀ (pv : Option Char) (t : Str) (m' : MRes), m' ∈ matchList a pv t →
      ka ≤ ((t.take m'.1).filter isDig).length)
    (Hb : ∀ (pv : Option Char) (t : Str) (m' : MRes), m' ∈ matchList b pv t →
      kb ≤ ((t.take m'.1).filter isDig).length) :
    ka + kb ≤ ((s.take m.1).filter isDig).length := by
  obtain ⟨m1, m2, h1, h2, hm⟩ := matchList_cat_ex h
  rw [hm, List.take_add, List.filter_append, List.length_append]
  exact Nat.add_le_add (Ha _ _ _ h1) (Hb _ _ _ h2)

theorem phone_value_digits {prev : Option Char} {s : Str} {m : MRes}
    (h : m ∈ matchList phoneRE prev s) :
    10 ≤ ((s.take m.1).filter isDig).length := by
  unfold phoneRE at h
  have triv : ∀ (r : RE) (pv : Option Char) (t : Str) (m' : MRes),
      m' ∈ matchList r pv t → 0 ≤ ((t.take m'.1).filter isDig).length :=
    fun _ _ _ _ _ => Nat.zero_le _
  have h8 : ∀ (pv : Option Char) (t : Str) (m' : MRes),
      m' ∈ matchList (.cat (.rep isDig 4 (some 4)) .wordB) pv t →
      4 ≤ ((t.take m'.1).filter isDig).length := by
    intro pv t m' h'
    exact cat_digit_bound h' 4 0 (fun _ _ _ hx => rep_digit_bound hx) (triv _)
  have h7 : ∀ (pv : Option Char) (t : Str) (m' : MRes),
      m' ∈ matchList (.cat (.rep phoneSepC 0 (some 1))
        (.cat (.rep isDig 4 (some 4)) .wordB)) pv t →
      4 ≤ ((t.take m'.1).filter isDig).length := by
    intro pv t m' h'
    exact cat_digit_bound h' 0 4 (triv _) h8
  have h6 : ∀ (pv : Option Char) (t : Str) (m' : MRes),
      m' ∈ matchList (.cat (.rep isDig 3 (some 3)) (.cat (.rep phoneSepC 0 (some 1))
        (.cat (.rep isDig 4 (some 4)) .wordB))) pv t →
      7 ≤ ((t.take m'.1).filter isDig).length := by
    intro pv t m' h'
    exact cat_digit_bound h' 3 4 (fun _ _ _ hx => rep_digit_bound hx) h7
  have h5 : ∀ (pv : Option Char) (t : Str) (m' : MRes),
      m' ∈ matchList (.cat (.rep phoneSepC 0 (some 1)) (.cat (.rep isDig 3 (some 3))
        (.cat (.rep phoneSepC 0 (some 1))
          (.cat (.rep isDig 4 (some 4)) .wordB)))) pv t →
      7 ≤ ((t.take m'.1).filter isDig).length := by
    intro pv t m' h'
    exact cat_digit_bound h' 0 7 (triv _) h6
  have h4 : ∀ (pv : Option Char) (t : Str) (m' : MRes),
      m' ∈ matchList (.cat (.rep (· = ')') 0 (some 1)) (.cat (.rep phoneSepC 0 (some 1))
        (.cat (.rep isDig 3 (some 3)) (.cat (.rep phoneSepC 0 (some 1))
          (.cat (.rep isDig 4 (some 4)) .wordB))))) pv t →
      7 ≤ ((t.take m'.1).filter isDig).length := by
    intro pv t m' h'
    exact cat_digit_bound h' 0 7 (triv _) h5
  have h3 : ∀ (pv : Option Char) (t : Str) (m' : MRes),
      m' ∈ matchList (.cat (.rep isDig 3 (some 3)) (.cat (.rep (· = ')') 0 (some 1))
        (.cat (.rep phoneSepC 0 (some 1)) (.cat (.rep isDig 3 (some 3))
          (.cat (.rep phoneSepC 0 (some 1))
            (.cat (.rep isDig 4 (some 4)) .wordB)))))) pv t →
      10 ≤ ((t.take m'.1).filter isDig).length := by
    intro pv t m' h'
    exact cat_digit_bound h' 3 7 (fun _ _ _ hx => rep_digit_bound hx) h4
  have h2 : ∀ (pv : Option Char) (t : Str) (m' : MRes),
      m' ∈ matchList (.cat (.rep (· = '(') 0 (some 1)) (.cat (.rep isDig 3 (some 3))
        (.cat (.rep (· = ')') 0 (some 1)) (.cat (.rep phoneSepC 0 (some 1))
          (.cat (.rep isDig 3 (some 3)) (.cat (.rep phoneSepC 0 (some 1))
            (.cat (.rep isDig 4 (some 4)) .wordB))))))) pv t →
      10 ≤ ((t.take m'.1).filter isDig).length := by
    intro pv t m' h'
    exact cat_digit_bound h' 0 10 (triv _) h3
  have h1 : ∀ (pv : Option Char) (t : Str) (m' : MRes),
      m' ∈ matchList (.cat (.alt (.cat (.rep (· = '+') 0 (some 1))
          (.cat (.cclass (· = '1')) (.rep phoneSepC 0 (some 1)))) .eps)
        (.cat (.rep (· = '(') 0 (some 1)) (.cat (.rep isDig 3 (some 3))
          (.cat (.rep (· = ')') 0 (some 1)) (.cat (.rep phoneSepC 0 (some 1))
            (.cat (.rep isDig 3 (some 3)) (.cat (.rep phoneSepC 0 (some 1))
              (.cat (.rep isDig 4 (some 4)) .wordB)))))))) pv t →
      10 ≤ ((t.take m'.1).filter isDig).length := by
    intro pv t m' h'
    exact cat_digit_bound h' 0 10 (triv _) h2
  exact cat_digit_bound h 0 10 (triv _) h1

/-- Claim C9: every phone finding contains at least 4 digit characters (the
phone regex in fact guarantees 10), so the fully-masked fallback branch of the
phone policy is unreachable: the masked value always keeps the last 4
characters. -/
theorem detect_phone_min_digits (text : Str) (f : Finding)
    (hf : f ∈ detect_pii text) (hk : f.kind = str "phone") :
    4 ≤ (f.value.filter isDig).length ∧
    ∀ mc : Str, maskValue mc f =
      pyMul mc (f.value.length - 4) ++ takeLast 4 f.value := by
  obtain ⟨pr, hpr, im, him, hfeq⟩ := mem_detect_pii hf
  have hkind : pr.1 = str "phone" := by rw [hfeq] at hk; exact hk
  simp only [piiPatterns, List.mem_cons, List.mem_singleton,
    List.not_mem_nil, or_false] at hpr
  have hre : pr.2 = phoneRE := by
    rcases hpr with rfl | rfl | rfl | rfl | rfl | rfl | rfl <;>
      first
      | rfl
      | (exfalso; revert hkind; decide)
  obtain ⟨hi, hm⟩ := finditer_mem him
  rw [hre] at hm
  have hds := phone_value_digits hm
  have hval : f.value = (text.drop im.1).take im.2.1 := by
    rw [hfeq]
    show pySlice text im.1 (im.1 + im.2.1) = _
    unfold pySlice
    rw [Nat.add_sub_cancel_left]
  have hdig : 4 ≤ (f.value.filter isDig).length := by
    rw [hval]; omega
  refine ⟨hdig, ?_⟩
  intro mc
  simp only [maskValue]
  rw [if_neg (by rw [hk]; decide), if_neg (by rw [hk]; decide), if_pos hk,
    if_pos hdig]

/-- Witness for C9 at a concrete phone finding. -/
theorem detect_phone_min_digits_witness :
    ((⟨str "phone", str "555-123-4567", 0, 12⟩ : Finding) ∈
        detect_pii (str "555-123-4567")) ∧
    ((⟨str "phone", str "555-123-4567", 0, 12⟩ : Finding).kind = str "phone") ∧
    4 ≤ (((⟨str "phone", str "555-123-4567", 0, 12⟩ : Finding).value.filter
        isDig)).length ∧
    maskValue (str "*") ⟨str "phone", str "555-123-4567", 0, 12⟩ =
      pyMul (str "*") ((str "555-123-4567").length - 4) ++
        takeLast 4 (str "555-123-4567") :=
  ⟨by decide, by decide,
    (detect_phone_min_digits (str "555-123-4567") _ (by decide) (by decide)).1,
    (detect_phone_min_digits (str "555-123-4567") _ (by decide) (by decide)).2
      (str "*")⟩

theorem pySplit_no_sep {sep : Char} {s : Str} (h : sep ∉ s) :
    pySplit sep s = [s] := by
  induction s with
  | nil => rfl
  | cons c cs ih =>
    have hc : ¬ c = sep := fun hcc => h (by simp [hcc])
    have hcs : sep ∉ cs := fun hm => h (by simp [hm])
    simp only [pySplit, if_neg hc, ih hcs]

theorem pySplit_single_sep {sep : Char} {loc dom : Str}
    (hl : sep ∉ loc) (hd : sep ∉ dom) :
    pySplit sep (loc ++ sep :: dom) = [loc, dom] := by
  induction loc with
  | nil => simp [pySplit, pySplit_no_sep hd]
  | cons c cs ih =>
    have hc : ¬ c = sep := fun hcc => hl (by simp [hcc])
    have hcs : sep ∉ cs := fun hm => hl (by simp [hm])
    simp only [List.cons_append, pySplit, if_neg hc, List.append_eq, ih hcs]

theorem email_match_split {prev : Option Char} {s : Str} {m : MRes}
    (h : m ∈ matchList emailRE prev s) :
    ∃ loc dom : Str, s.take m.1 = loc ++ '@' :: dom ∧ '@' ∉ loc ∧ '@' ∉ dom := by
  unfold emailRE at h
  obtain ⟨mB, m1, hB, h1, he⟩ := matchList_cat_ex h
  have hB0 := matchList_wordB_ex hB
  rw [hB0, List.drop_zero] at h1
  obtain ⟨mL, m2, hL, h2, he1⟩ := matchList_cat_ex h1
  obtain ⟨_, hLchars, _⟩ := matchList_rep_ex hL
  obtain ⟨mA, m3, hA, h3, he2⟩ := matchList_cat_ex h2
  obtain ⟨hA1, c, t, hsplit, hc⟩ := matchList_cclass_ex hA
  have hceq : c = '@' := by simpa using hc
  subst hceq
  rw [hA1, hsplit, List.drop_succ_cons, List.drop_zero] at h3
  obtain ⟨mD, m4, hD, h4, he3⟩ := matchList_cat_ex h3
  obtain ⟨_, hDchars, _⟩ := matchList_rep_ex hD
  obtain ⟨mdot, m5, hdot, h5, he4⟩ := matchList_cat_ex h4
  obtain ⟨hdot1, c2, t2, hsplit2, hc2⟩ := matchList_cclass_ex hdot
  have hc2eq : c2 = '.' := by simpa using hc2
  subst hc2eq
  rw [hdot1, hsplit2, List.drop_succ_cons, List.drop_zero] at h5
  obtain ⟨mT, m6, hT, h6, he5⟩ := matchList_cat_ex h5
  obtain ⟨_, hTchars, _⟩ := matchList_rep_ex hT
  have h60 := matchList_wordB_ex h6
  refine ⟨s.take mL.1, t.take mD.1 ++ '.' :: t2.take mT.1, ?_, ?_, ?_⟩
  · have hm1 : m.1 = mL.1 + (1 + (mD.1 + (1 + mT.1))) := by omega
    rw [hm1, List.take_add, hsplit]
    have e1 : ('@' :: t).take (1 + (mD.1 + (1 + mT.1))) =
        '@' :: t.take (mD.1 + (1 + mT.1)) := by
      rw [Nat.add_comm 1, List.take_succ_cons]
    rw [e1, List.take_add, hsplit2]
    have e2 : ('.' :: t2).take (1 + mT.1) = '.' :: t2.take mT.1 := by
      rw [Nat.add_comm 1, List.take_succ_cons]
    rw [e2]
  · intro hmem
    have := hLchars '@' hmem
    simp [emailLocalC] at this
  · intro hmem
    rcases List.mem_append.mp hmem with hmem | hmem
    · have := hDchars '@' hmem
      simp [emailDomC] at this
    · rcases List.mem_cons.mp hmem with heq | hmem
      · exact absurd heq (by decide)
      · have := hTchars '@' hmem
        simp [emailTldC] at this

/-- Claim C3: every email finding's value has a unique at-sign, and the masked
value recorded by `mask_pii` is exactly 5 mask characters, the at-sign, and
the original domain part verbatim, whatever the local part's length. -/
theorem mask_pii_email_policy (text : Str) (f : Finding)
    (hf : f ∈ detect_pii text) (hk : f.kind = str "email") :
    ∃ loc dom : Str, f.value = loc ++ '@' :: dom ∧ '@' ∉ loc ∧ '@' ∉ dom ∧
      ∀ mc : Str,
        maskValue mc f = pyMul mc 5 ++ '@' :: dom ∧
        (⟨f.kind, f.value, maskValue mc f⟩ : MaskedItem) ∈
          (mask_pii text mc).2 := by
  obtain ⟨pr, hpr, im, him, hfeq⟩ := mem_detect_pii hf
  have hkind : pr.1 = str "email" := by rw [hfeq] at hk; exact hk
  simp only [piiPatterns, List.mem_cons, List.mem_singleton,
    List.not_mem_nil, or_false] at hpr
  have hre : pr.2 = emailRE := by
    rcases hpr with rfl | rfl | rfl | rfl | rfl | rfl | rfl <;>
      first
      | rfl
      | (exfalso; revert hkind; decide)
  obtain ⟨hi, hm⟩ := finditer_mem him
  rw [hre] at hm
  have hval : f.value = (text.drop im.1).take im.2.1 := by
    rw [hfeq]
    show pySlice text im.1 (im.1 + im.2.1) = _
    unfold pySlice
    rw [Nat.add_sub_cancel_left]
  obtain ⟨loc, dom, hsplit, hloc, hdom⟩ := email_match_split hm
  refine ⟨loc, dom, by rw [hval, hsplit], hloc, hdom, ?_⟩
  intro mc
  constructor
  · simp only [maskValue]
    rw [if_pos hk, hval, hsplit, pySplit_single_sep hloc hdom]
  · exact mem_mask_items hf

/-- Witness for C3 at a concrete email finding. -/
theorem mask_pii_email_policy_witness :
    ((⟨str "email", str "x@y.com", 0, 7⟩ : Finding) ∈
        detect_pii (str "x@y.com")) ∧
    ((⟨str "email", str "x@y.com", 0, 7⟩ : Finding).kind = str "email") ∧
    (∃ loc dom : Str,
      (⟨str "email", str "x@y.com", 0, 7⟩ : Finding).value =
          loc ++ '@' :: dom ∧ '@' ∉ loc ∧ '@' ∉ dom ∧
        ∀ mc : Str,
          maskValue mc ⟨str "email", str "x@y.com", 0, 7⟩ =
              pyMul mc 5 ++ '@' :: dom ∧
          (⟨str "email", str "x@y.com",
              maskValue mc ⟨str "email", str "x@y.com", 0, 7⟩⟩ : MaskedItem) ∈
            (mask_pii (str "x@y.com") mc).2) :=
  ⟨by decide, by decide,
    mask_pii_email_policy (str "x@y.com") _ (by decide) (by decide)⟩

/-! ## Claims about the security analyzer -/

theorem any_pyIn_iff (inds : List Str) (text : Str) :
    (inds.any (fun ind => pyIn ind text)) = true ↔
      ∃ ind ∈ inds, SubStr ind text := by
  rw [List.any_eq_true]
  constructor
  · rintro ⟨ind, hind, hin⟩
    exact ⟨ind, hind, pyIn_iff.mp hin⟩
  · rintro ⟨ind, hind, hsub⟩
    exact ⟨ind, hind, pyIn_iff.mpr hsub⟩

/-- Claim C5: `analyze_iam_policy` reports `found = true` exactly when one of
the literal indicator strings occurs as a case-sensitive substring, and with
no indicator present it returns `found = false`, empty policies and the empty
summary, whatever else the text contains. -/
theorem analyze_iam_found_iff (text : Str) :
    ((analyze_iam_policy text).found = true ↔
      ∃ ind ∈ iamIndicators, SubStr ind text) ∧
    ((¬ ∃ ind ∈ iamIndicators, SubStr ind text) →
      analyze_iam_policy text = ⟨false, [], none⟩) := by
  by_cases hcond : (iamIndicators.any (fun ind => pyIn ind text)) = true
  · have hfound : (analyze_iam_policy text).found = true := by
      unfold analyze_iam_policy
      rw [hcond]
      rfl
    exact ⟨⟨fun _ => (any_pyIn_iff _ _).mp hcond, fun _ => hfound⟩,
      fun hne => absurd ((any_pyIn_iff _ _).mp hcond) hne⟩
  · have hf : (iamIndicators.any (fun ind => pyIn ind text)) = false := by
      revert hcond
      cases iamIndicators.any (fun ind => pyIn ind text) <;> simp
    have hres : analyze_iam_policy text = ⟨false, [], none⟩ := by
      unfold analyze_iam_policy
      rw [hf]
      rfl
    constructor
    · rw [hres]
      constructor
      · intro h
        simp at h
      · intro hex
        exact absurd ((any_pyIn_iff _ _).mpr hex) hcond
    · intro _
      exact hres

/-- Witness for C5 at indicator-free text. -/
theorem analyze_iam_found_iff_witness :
    (¬ ∃ ind ∈ iamIndicators, SubStr ind (str "zz")) ∧
    analyze_iam_policy (str "zz") = ⟨false, [], none⟩ :=
  ⟨by decide, (analyze_iam_found_iff (str "zz")).2 (by decide)⟩

/-- The sample firewall line of the spec's testable property 5. -/
def fwSampleText : Str :=
  str "Rule 1: allow tcp port 443 from 10.0.0.0/8 to 192.168.1.100"

/-- Claim C7: on the sample firewall line the analyzer finds exactly one rule
with the claimed action, protocol, port and source fields, and the summary
counts one allow rule and no deny rules. -/
theorem analyze_firewall_sample_rule :
    (analyze_firewall_rules fwSampleText).found = true ∧
    (analyze_firewall_rules fwSampleText).rules.map
        (fun r => (r.action, r.protocol, r.port, r.source_ip)) =
      [(some (str "allow"), some (str "tcp"), some (str "443"),
        some (str "10.0.0.0/8"))] ∧
    (analyze_firewall_rules fwSampleText).summary.map
        (fun s => (s.allow_rules, s.deny_rules)) = some (1, 0) := by
  decide

/-- A case-insensitive literal built directly from a character list. -/
def litCIStr (w : Str) : RE :=
  w.foldr (fun ch r => RE.cat (.cclass (ciEq ch)) r) .eps

/-- The C10 example text. -/
def fwOddText : Str := str "firewall policy for many users"

/-- Claim C10: the firewall protocol pattern has no word-boundary anchors, so
on a text containing none of tcp, udp, icmp, ip, any as a standalone word the
analyzer still reports `found = true` with a rule line whose protocol is
`any` (matched inside the word `many`). -/
theorem firewall_protocol_substring_match :
    (∀ kw ∈ [str "tcp", str "udp", str "icmp", str "ip", str "any"],
      finditer (RE.cat .wordB (RE.cat (litCIStr kw) .wordB)) fwOddText = []) ∧
    (analyze_firewall_rules fwOddText).found = true ∧
    (analyze_firewall_rules fwOddText).rules.map (fun r => r.protocol) =
      [some (str "any")] := by
  decide

/-- Counterexample to C6 as stated: on a text whose only IAM match is an
action value `Allowed` (no effect field at all), `has_allow_effect` is
nevertheless true, although no collected value is the effect string `Allow` —
the flag comes from the substring check `'Allow' in str(p)` over the whole
policy-dict rendering. -/
theorem iam_has_allow_counterexample :
    (analyze_iam_policy (str "\"Action\": \"Allowed\"")).policies =
      [⟨str "action", [str "Allowed"]⟩] ∧
    ((analyze_iam_policy (str "\"Action\": \"Allowed\"")).summary.map
      (fun s => s.has_allow_effect)) = some true ∧
    ¬ ∃ p ∈ (analyze_iam_policy (str "\"Action\": \"Allowed\"")).policies,
      str "Allow" ∈ p.values := by
  decide

/-! ## Substring analysis for the policy-dict rendering -/

theorem sub_nil {w : Str} (h : SubStr w []) : w = [] := by
  obtain ⟨p, q, hpq⟩ := h
  rcases List.append_eq_nil.mp hpq.symm with ⟨hpw, hq⟩
  exact (List.append_eq_nil.mp hpw).2

theorem sub_cons {w : Str} {c : Char} {s : Str} (h : SubStr w (c :: s)) :
    (∃ t, c :: s = w ++ t) ∨ SubStr w s := by
  obtain ⟨p, q, hpq⟩ := h
  cases p with
  | nil => exact Or.inl ⟨q, by simpa using hpq⟩
  | cons a p =>
    right
    rw [List.cons_append] at hpq
    injection hpq with h1 h2
    exact ⟨p, q, h2⟩

theorem sub_cons_of {w s : Str} (c : Char) (h : SubStr w s) : SubStr w (c :: s) := by
  obtain ⟨p, q, rfl⟩ := h
  exact ⟨c :: p, q, rfl⟩

theorem sub_append_left {w a : Str} (b : Str) (h : SubStr w a) :
    SubStr w (a ++ b) := by
  obtain ⟨p, q, rfl⟩ := h
  exact ⟨p, q ++ b, by simp⟩

theorem sub_append_right {w b : Str} (a : Str) (h : SubStr w b) :
    SubStr w (a ++ b) := by
  obtain ⟨p, q, rfl⟩ := h
  exact ⟨a ++ p, q, by simp⟩

theorem sub_self_append (w a : Str) : SubStr w (a ++ w) := ⟨a, [], by simp⟩

theorem sub_chars {w s : Str} (h : SubStr w s) : ∀ c ∈ w, c ∈ s := by
  obtain ⟨p, q, rfl⟩ := h
  intro c hc
  simp [hc]

theorem sub_cons_elim {w : Str} {c : Char} {s : Str} (h : SubStr w (c :: s))
    (hne : w.head? ≠ some c) : SubStr w s := by
  rcases sub_cons h with ⟨t, ht⟩ | h2
  · cases w with
    | nil => exact ⟨[], s, rfl⟩
    | cons d w' =>
      rw [List.cons_append] at ht
      injection ht with h1 _
      exact absurd (by rw [List.head?_cons, h1]) hne
  · exact h2

theorem sub_peel_many {w : Str} :
    ∀ (pre rest : Str), (∀ c ∈ pre, w.head? ≠ some c) →
      SubStr w (pre ++ rest) → SubStr w rest := by
  intro pre
  induction pre with
  | nil => intro rest _ h; simpa using h
  | cons c pre' ih =>
    intro rest hprop h
    rw [List.cons_append] at h
    exact ih rest (fun d hd => hprop d (by simp [hd]))
      (sub_cons_elim h (hprop c (by simp)))

theorem sub_append_elim {w a b : Str} (h : SubStr w (a ++ b)) :
    SubStr w a ∨ SubStr w b ∨
      ∃ w1 w2, w = w1 ++ w2 ∧ w1 ≠ [] ∧ w2 ≠ [] ∧
        (∃ p, a = p ++ w1) ∧ ∃ q, b = w2 ++ q := by
  obtain ⟨p, q, hpq⟩ := h
  rw [List.append_assoc] at hpq
  rcases List.append_eq_append_iff.mp hpq with ⟨t, hp, hb⟩ | ⟨t, ha, hd⟩
  · exact Or.inr (Or.inl ⟨t, q, by rw [hb, List.append_assoc]⟩)
  · rcases List.append_eq_append_iff.mp hd with ⟨u, ht, hq⟩ | ⟨u, hw, hb⟩
    · exact Or.inl ⟨p, u, by rw [ha, ht, List.append_assoc]⟩
    · cases t with
      | nil =>
        have hu : u = w := by simpa using hw.symm
        exact Or.inr (Or.inl ⟨[], q, by simp [hb, hu]⟩)
      | cons t0 t' =>
        cases u with
        | nil =>
          have ht2 : t0 :: t' = w := by simpa using hw.symm
          exact Or.inl ⟨p, [], by simp [ha, ht2]⟩
        | cons u0 u' =>
          exact Or.inr (Or.inr ⟨t0 :: t', u0 :: u', hw, by simp, by simp,
            ⟨p, ha⟩, ⟨q, hb⟩⟩)

theorem sub_append_headSafe {w a b : Str} (h : SubStr w (a ++ b))
    (hb : ∀ c, b.head? = some c → c ∉ w) : SubStr w a ∨ SubStr w b := by
  rcases sub_append_elim h with h1 | h1 | ⟨w1, w2, hw, hw1, hw2, _, ⟨q, hq⟩⟩
  · exact Or.inl h1
  · exact Or.inr h1
  · exfalso
    cases w2 with
    | nil => exact hw2 rfl
    | cons c w2' =>
      have hc : b.head? = some c := by rw [hq]; rfl
      exact hb c hc (by rw [hw]; simp)

/-- Characters that can never occur in a word `w` for which the flag analysis
is carried out: repr-special characters for either quote, and the structural
punctuation of the dict rendering. -/
def iamSafeChar (c : Char) : Bool :=
  !(isSpec '\x27' c) && !(isSpec '"' c) && !(c = '[') && !(c = ']') &&
    !(c = ',') && !(c = ' ') && !(c = ':') && !(c = '\x7b') && !(c = '\x7d')

/-- Characters the first character of such a word must additionally avoid:
anything occurring in the fixed dict skeleton (for any of the four component
names) and anything an escape sequence can emit after its backslash. -/
def iamHeadOk (c : Char) : Bool :=
  !((str "\x7b\x27component\x27: \x27effect\x27, \x27values\x27: [").contains c) &&
  !((str "\x7b\x27component\x27: \x27action\x27, \x27values\x27: [").contains c) &&
  !((str "\x7b\x27component\x27: \x27resource\x27, \x27values\x27: [").contains c) &&
  !((str "\x7b\x27component\x27: \x27principal\x27, \x27values\x27: [").contains c) &&
  !(c = 'n') && !(c = 'r') && !(c = 't') && !(c = 'x') &&
  ((List.range 16).all (fun n => !(hexDig n = c)))

theorem safe_not_mem {w : Str} (hAll : ∀ c ∈ w, iamSafeChar c = true)
    {c : Char} (hc : iamSafeChar c = false) : c ∉ w := by
  intro hm
  rw [hAll c hm] at hc
  cases hc

theorem head_ne_of_safe {w : Str} (hAll : ∀ c ∈ w, iamSafeChar c = true)
    {c : Char} (hc : iamSafeChar c = false) : w.head? ≠ some c := by
  intro h
  have hm : c ∈ w := by
    cases w with
    | nil => simp at h
    | cons d w' =>
      rw [List.head?_cons] at h
      injection h with h1
      simp [h1]
  rw [hAll c hm] at hc
  cases hc

theorem head_ne_of_headOk {w : Str}
    (hhd : ∀ hc, w.head? = some hc → iamHeadOk hc = true)
    {c : Char} (hc : iamHeadOk c = false) : w.head? ≠ some c := by
  intro h
  rw [hhd c h] at hc
  cases hc

theorem safe_spec1 {c : Char} (hc : iamSafeChar c = true) :
    isSpec '\x27' c = false := by
  cases h : isSpec '\x27' c
  · rfl
  · simp [iamSafeChar, h] at hc

theorem safe_spec2 {c : Char} (hc : iamSafeChar c = true) :
    isSpec '"' c = false := by
  cases h : isSpec '"' c
  · rfl
  · simp [iamSafeChar, h] at hc

theorem escChar_normal {q c : Char} (h : isSpec q c = false) :
    escChar q c = [c] := by
  simp only [isSpec, Bool.or_eq_false_iff, decide_eq_false_iff_not] at h
  obtain ⟨⟨⟨⟨⟨⟨h1, h2⟩, h3⟩, h4⟩, h5⟩, h6⟩, h7⟩ := h
  unfold escChar
  rw [if_neg h1, if_neg h2, if_neg h3, if_neg h4, if_neg h5,
    if_neg (by simp [h6, h7])]

theorem hexDig_lt (n : Nat) (h : n < 16) :
    iamHeadOk (hexDig n) = false := by
  revert h
  revert n
  decide

theorem escChar_spec {q c : Char} (h : isSpec q c = true) :
    ∃ tl, escChar q c = '\\' :: tl ∧
      ∀ ch ∈ tl, ch = '\\' ∨ ch = q ∨ ch = 'n' ∨ ch = 'r' ∨ ch = 't' ∨
        ch = 'x' ∨ ∃ n, n < 16 ∧ ch = hexDig n := by
  unfold escChar
  by_cases h1 : c = '\\'
  · rw [if_pos h1]
    exact ⟨['\\'], rfl, by intro ch hch; simp at hch; subst hch; exact Or.inl rfl⟩
  rw [if_neg h1]
  by_cases h2 : c = q
  · rw [if_pos h2]
    refine ⟨[q], rfl, ?_⟩
    intro ch hch
    simp at hch
    subst hch
    exact Or.inr (Or.inl rfl)
  rw [if_neg h2]
  by_cases h3 : c = '\n'
  · rw [if_pos h3]
    refine ⟨['n'], rfl, ?_⟩
    intro ch hch
    simp at hch
    subst hch
    exact Or.inr (Or.inr (Or.inl rfl))
  rw [if_neg h3]
  by_cases h4 : c = '\r'
  · rw [if_pos h4]
    refine ⟨['r'], rfl, ?_⟩
    intro ch hch
    simp at hch
    subst hch
    exact Or.inr (Or.inr (Or.inr (Or.inl rfl)))
  rw [if_neg h4]
  by_cases h5 : c = '\t'
  · rw [if_pos h5]
    refine ⟨['t'], rfl, ?_⟩
    intro ch hch
    simp at hch
    subst hch
    exact Or.inr (Or.inr (Or.inr (Or.inr (Or.inl rfl))))
  rw [if_neg h5]
  have hcond : c.toNat < 32 ∨ c = '\x7f' := by
    simp only [isSpec, h1, h2, h3, h4, h5, decide_eq_true_eq, Bool.or_eq_true,
      decide_eq_false_iff_not, decide_False, Bool.false_or] at h
    tauto
  have hcondb : (decide (c.toNat < 32) || decide (c = '\x7f')) = true := by
    rcases hcond with hh | hh <;> simp [hh]
  rw [if_pos hcondb]
  refine ⟨['x', hexDig (c.toNat / 16), hexDig (c.toNat % 16)], rfl, ?_⟩
  intro ch hch
  simp only [List.mem_cons, List.mem_singleton, List.not_mem_nil, or_false] at hch
  rcases hch with rfl | rfl | rfl
  · exact Or.inr (Or.inr (Or.inr (Or.inr (Or.inr (Or.inl rfl)))))
  · refine Or.inr (Or.inr (Or.inr (Or.inr (Or.inr (Or.inr ⟨c.toNat / 16, ?_, rfl⟩)))))
    rcases hcond with hlt | heq
    · omega
    · subst heq; decide
  · exact Or.inr (Or.inr (Or.inr (Or.inr (Or.inr (Or.inr
      ⟨c.toNat % 16, Nat.mod_lt _ (by omega), rfl⟩)))))

theorem escStr_cons (q c : Char) (v : Str) :
    escStr q (c :: v) = escChar q c ++ escStr q v := rfl

theorem escStr_append (q : Char) (a b : Str) :
    escStr q (a ++ b) = escStr q a ++ escStr q b := by
  simp [escStr]

theorem escChar_of_safe {q c : Char} (hq : q = '\x27' ∨ q = '"')
    (hc : iamSafeChar c = true) : escChar q c = [c] := by
  rcases hq with rfl | rfl
  · exact escChar_normal (safe_spec1 hc)
  · exact escChar_normal (safe_spec2 hc)

theorem escStr_of_safe {q : Char} (hq : q = '\x27' ∨ q = '"') {w : Str}
    (hAll : ∀ c ∈ w, iamSafeChar c = true) : escStr q w = w := by
  induction w with
  | nil => rfl
  | cons c w' ih =>
    rw [escStr_cons, escChar_of_safe hq (hAll c (by simp)),
      ih (fun e he => hAll e (by simp [he])), List.singleton_append]

theorem isSpec_false_of_not_true {q c : Char} (h : ¬ isSpec q c = true) :
    isSpec q c = false := by
  cases hx : isSpec q c
  · rfl
  · exact absurd hx h

theorem pre_escStr {q : Char} :
    ∀ (v w' t : Str), (∀ c ∈ w', iamSafeChar c = true) →
      escStr q v = w' ++ t → ∃ t', v = w' ++ t' := by
  intro v
  induction v with
  | nil =>
    intro w' t _ h
    have hw : w' = [] := (List.append_eq_nil.mp h.symm).1
    subst hw
    exact ⟨[], rfl⟩
  | cons c v' ih =>
    intro w' t hAll h
    cases w' with
    | nil => exact ⟨c :: v', rfl⟩
    | cons d w'' =>
      rw [escStr_cons] at h
      by_cases hs : isSpec q c = true
      · obtain ⟨tl, htl, _⟩ := escChar_spec hs
        rw [htl, List.cons_append, List.cons_append] at h
        injection h with h1 _
        have hd : iamSafeChar d = true := hAll d (by simp)
        rw [← h1] at hd
        exact absurd hd (by decide)
      · rw [escChar_normal (isSpec_false_of_not_true hs),
          List.singleton_append, List.cons_append] at h
        injection h with h1 h2
        obtain ⟨t', ht'⟩ := ih w'' t (fun e he => hAll e (by simp [he])) h2
        exact ⟨t', by rw [List.cons_append, h1, ht']⟩

theorem sub_escStr {q : Char} (hq : q = '\x27' ∨ q = '"') {w : Str}
    (hW : w ≠ []) (hAll : ∀ c ∈ w, iamSafeChar c = true)
    (hhd : ∀ hc, w.head? = some hc → iamHeadOk hc = true) :
    ∀ (v : Str), SubStr w (escStr q v) → SubStr w v := by
  intro v
  induction v with
  | nil => intro h; exact h
  | cons c v' ih =>
    intro h
    rw [escStr_cons] at h
    by_cases hs : isSpec q c = true
    · obtain ⟨tl, htl, htlp⟩ := escChar_spec hs
      rw [htl, List.cons_append] at h
      have h2 := sub_cons_elim h (head_ne_of_safe hAll (by decide))
      have hpre : ∀ ch ∈ tl, w.head? ≠ some ch := by
        intro ch hch
        rcases htlp ch hch with rfl | rfl | rfl | rfl | rfl | rfl | ⟨n, hn, rfl⟩
        · exact head_ne_of_safe hAll (by decide)
        · rcases hq with rfl | rfl <;> exact head_ne_of_safe hAll (by decide)
        · exact head_ne_of_headOk hhd (by decide)
        · exact head_ne_of_headOk hhd (by decide)
        · exact head_ne_of_headOk hhd (by decide)
        · exact head_ne_of_headOk hhd (by decide)
        · exact head_ne_of_headOk hhd (hexDig_lt n hn)
      exact sub_cons_of c (ih (sub_peel_many tl _ hpre h2))
    · rw [escChar_normal (isSpec_false_of_not_true hs),
        List.singleton_append] at h
      rcases sub_cons h with ⟨t, ht⟩ | h2
      · cases w with
        | nil => exact absurd rfl hW
        | cons d w' =>
          rw [List.cons_append] at ht
          injection ht with h1 h2
          obtain ⟨t', ht'⟩ :=
            pre_escStr v' w' t (fun e he => hAll e (by simp [he])) h2
          refine ⟨[], t', ?_⟩
          rw [List.nil_append, List.cons_append, h1, ht']
      · exact sub_cons_of c (ih h2)

theorem reprQuote_cases (v : Str) : reprQuote v = '\x27' ∨ reprQuote v = '"' := by
  unfold reprQuote
  split
  · exact Or.inr rfl
  · exact Or.inl rfl

theorem sub_pyReprStr_iff {w : Str} (hW : w ≠ [])
    (hAll : ∀ c ∈ w, iamSafeChar c = true)
    (hhd : ∀ hc, w.head? = some hc → iamHeadOk hc = true) (v : Str) :
    SubStr w (pyReprStr v) ↔ SubStr w v := by
  have hq := reprQuote_cases v
  have hqsafe : iamSafeChar (reprQuote v) = false := by
    rcases hq with hh | hh <;> rw [hh] <;> decide
  constructor
  · intro h
    rw [pyReprStr] at h
    have h2 := sub_cons_elim h (head_ne_of_safe hAll hqsafe)
    have hbq : ∀ ch, ([reprQuote v] : Str).head? = some ch → ch ∉ w := by
      intro ch hch
      simp only [List.head?_cons, Option.some.injEq] at hch
      subst hch
      exact safe_not_mem hAll hqsafe
    rcases sub_append_headSafe h2 hbq with h3 | h3
    · exact sub_escStr hq hW hAll hhd v h3
    · exfalso
      cases w with
      | nil => exact hW rfl
      | cons d w' =>
        have hd : d ∈ [reprQuote v] := sub_chars h3 d (by simp)
        simp only [List.mem_singleton] at hd
        subst hd
        exact safe_not_mem hAll hqsafe (by simp)
  · intro h
    obtain ⟨p, r, rfl⟩ := h
    rw [pyReprStr, escStr_append, escStr_append,
      escStr_of_safe hq hAll]
    apply sub_cons_of
    apply sub_append_left
    apply sub_append_left
    exact sub_self_append w _

theorem contains_of_mem {l : Str} {c : Char} (h : c ∈ l) : l.contains c = true := by
  simpa using h

theorem sub_joinSep_iff {w : Str} (hW : w ≠ [])
    (hAll : ∀ c ∈ w, iamSafeChar c = true)
    (hhd : ∀ hc, w.head? = some hc → iamHeadOk hc = true) :
    ∀ (vs : List Str),
      (SubStr w (joinSep (str ", ") (vs.map pyReprStr)) ↔
        ∃ v ∈ vs, SubStr w v) := by
  intro vs
  induction vs with
  | nil =>
    simp only [List.map_nil, joinSep]
    constructor
    · intro h
      exact absurd (sub_nil h) hW
    · rintro ⟨v, hv, _⟩
      simp at hv
  | cons v rest ih =>
    cases rest with
    | nil =>
      simp only [List.map_cons, List.map_nil, joinSep]
      rw [sub_pyReprStr_iff hW hAll hhd]
      simp
    | cons v2 rest2 =>
      have hjoin : joinSep (str ", ") ((v :: v2 :: rest2).map pyReprStr) =
          pyReprStr v ++
            (str ", " ++ joinSep (str ", ") ((v2 :: rest2).map pyReprStr)) := by
        simp [joinSep, List.append_assoc]
      rw [hjoin]
      have hb : ∀ c, (str ", " ++
          joinSep (str ", ") ((v2 :: rest2).map pyReprStr)).head? = some c →
          c ∉ w := by
        intro c hc
        have : c = ',' := by
          rw [show (str ", " ++ joinSep (str ", ")
            ((v2 :: rest2).map pyReprStr)).head? = some ',' from rfl] at hc
          injection hc with h1
          exact h1.symm
        subst this
        exact safe_not_mem hAll (by decide)
      constructor
      · intro h
        rcases sub_append_headSafe h hb with h1 | h1
        · exact ⟨v, by simp, (sub_pyReprStr_iff hW hAll hhd v).mp h1⟩
        · have h2 : SubStr w (joinSep (str ", ") ((v2 :: rest2).map pyReprStr)) := by
            refine sub_peel_many (str ", ") _ ?_ h1
            intro c hc
            have : c = ',' ∨ c = ' ' := by
              rcases List.mem_cons.mp hc with rfl | hc2
              · exact Or.inl rfl
              · rcases List.mem_cons.mp hc2 with rfl | hc3
                · exact Or.inr rfl
                · simp [str] at hc3
            rcases this with rfl | rfl <;> exact head_ne_of_safe hAll (by decide)
          obtain ⟨v', hv', hsub⟩ := ih.mp h2
          exact ⟨v', by simp [hv'], hsub⟩
      · rintro ⟨v', hv', hsub⟩
        rcases List.mem_cons.mp hv' with rfl | htail
        · exact sub_append_left _ ((sub_pyReprStr_iff hW hAll hhd v').mpr hsub)
        · exact sub_append_right _ (sub_append_right _ (ih.mpr ⟨v', htail, hsub⟩))

theorem pyStrPolicy_decomp (p : IamPolicyEntry) :
    pyStrPolicy p =
      (str "\x7b\x27component\x27: " ++ pyReprStr p.component ++
        str ", \x27values\x27: " ++ str "[") ++
        (joinSep (str ", ") (p.values.map pyReprStr) ++
          (str "]" ++ str "\x7d")) := by
  unfold pyStrPolicy pyListRepr
  simp [List.append_assoc]

theorem headOk_false_of_contains_effect {c : Char}
    (h : (str "\x7b\x27component\x27: \x27effect\x27, \x27values\x27: [").contains c = true) :
    iamHeadOk c = false := by
  cases hok : iamHeadOk c
  · rfl
  · exfalso
    have hmem : c ∈ str "\x7b\x27component\x27: \x27effect\x27, \x27values\x27: [" := by
      simpa using h
    simp [iamHeadOk] at hok
    exact hok.1.1.1.1.1.1.1.1 hmem

theorem headOk_false_of_contains_action {c : Char}
    (h : (str "\x7b\x27component\x27: \x27action\x27, \x27values\x27: [").contains c = true) :
    iamHeadOk c = false := by
  cases hok : iamHeadOk c
  · rfl
  · exfalso
    have hmem : c ∈ str "\x7b\x27component\x27: \x27action\x27, \x27values\x27: [" := by
      simpa using h
    simp [iamHeadOk] at hok
    exact hok.1.1.1.1.1.1.1.2 hmem

theorem headOk_false_of_contains_resource {c : Char}
    (h : (str "\x7b\x27component\x27: \x27resource\x27, \x27values\x27: [").contains c = true) :
    iamHeadOk c = false := by
  cases hok : iamHeadOk c
  · rfl
  · exfalso
    have hmem : c ∈ str "\x7b\x27component\x27: \x27resource\x27, \x27values\x27: [" := by
      simpa using h
    simp [iamHeadOk] at hok
    exact hok.1.1.1.1.1.1.2 hmem

theorem headOk_false_of_contains_principal {c : Char}
    (h : (str "\x7b\x27component\x27: \x27principal\x27, \x27values\x27: [").contains c = true) :
    iamHeadOk c = false := by
  cases hok : iamHeadOk c
  · rfl
  · exfalso
    have hmem : c ∈ str "\x7b\x27component\x27: \x27principal\x27, \x27values\x27: [" := by
      simpa using h
    simp [iamHeadOk] at hok
    exact hok.1.1.1.1.1.2 hmem

theorem sub_pyStrPolicy_iff {w : Str} (hW : w ≠ [])
    (hAll : ∀ c ∈ w, iamSafeChar c = true)
    (hhd : ∀ hc, w.head? = some hc → iamHeadOk hc = true)
    (p : IamPolicyEntry)
    (hcomp : p.component = str "effect" ∨ p.component = str "action" ∨
      p.component = str "resource" ∨ p.component = str "principal") :
    SubStr w (pyStrPolicy p) ↔ ∃ v ∈ p.values, SubStr w v := by
  constructor
  · intro h
    rw [pyStrPolicy_decomp] at h
    have hpeel : SubStr w (joinSep (str ", ") (p.values.map pyReprStr) ++
        (str "]" ++ str "\x7d")) := by
      rcases hcomp with hc | hc | hc | hc
      · rw [hc, show (str "\x7b\x27component\x27: " ++ pyReprStr (str "effect") ++
            str ", \x27values\x27: " ++ str "[") =
            str "\x7b\x27component\x27: \x27effect\x27, \x27values\x27: [" from by decide] at h
        refine sub_peel_many _ _ ?_ h
        intro c hc2
        exact head_ne_of_headOk hhd
          (headOk_false_of_contains_effect (contains_of_mem hc2))
      · rw [hc, show (str "\x7b\x27component\x27: " ++ pyReprStr (str "action") ++
            str ", \x27values\x27: " ++ str "[") =
            str "\x7b\x27component\x27: \x27action\x27, \x27values\x27: [" from by decide] at h
        refine sub_peel_many _ _ ?_ h
        intro c hc2
        exact head_ne_of_headOk hhd
          (headOk_false_of_contains_action (contains_of_mem hc2))
      · rw [hc, show (str "\x7b\x27component\x27: " ++ pyReprStr (str "resource") ++
            str ", \x27values\x27: " ++ str "[") =
            str "\x7b\x27component\x27: \x27resource\x27, \x27values\x27: [" from by decide] at h
        refine sub_peel_many _ _ ?_ h
        intro c hc2
        exact head_ne_of_headOk hhd
          (headOk_false_of_contains_resource (contains_of_mem hc2))
      · rw [hc, show (str "\x7b\x27component\x27: " ++ pyReprStr (str "principal") ++
            str ", \x27values\x27: " ++ str "[") =
            str "\x7b\x27component\x27: \x27principal\x27, \x27values\x27: [" from by decide] at h
        refine sub_peel_many _ _ ?_ h
        intro c hc2
        exact head_ne_of_headOk hhd
          (headOk_false_of_contains_principal (contains_of_mem hc2))
    have hb : ∀ c, ((str "]" ++ str "\x7d") : Str).head? = some c → c ∉ w := by
      intro c hc
      have : c = ']' := by
        rw [show ((str "]" ++ str "\x7d") : Str).head? = some ']' from rfl] at hc
        injection hc with h1
        exact h1.symm
      subst this
      exact safe_not_mem hAll (by decide)
    rcases sub_append_headSafe hpeel hb with h1 | h1
    · exact (sub_joinSep_iff hW hAll hhd p.values).mp h1
    · exfalso
      cases w with
      | nil => exact hW rfl
      | cons d w' =>
        have hd : d ∈ ((str "]" ++ str "\x7d") : Str) := sub_chars h1 d (by simp)
        have : d = ']' ∨ d = '\x7d' := by
          rcases List.mem_cons.mp hd with rfl | hd2
          · exact Or.inl rfl
          · rcases List.mem_cons.mp hd2 with rfl | hd3
            · exact Or.inr rfl
            · simp [str] at hd3
        rcases this with rfl | rfl
        · exact safe_not_mem hAll (show iamSafeChar ']' = false by decide) (by simp)
        · exact safe_not_mem hAll (show iamSafeChar '\x7d' = false by decide) (by simp)
  · rintro ⟨v, hv, hsub⟩
    rw [pyStrPolicy_decomp]
    exact sub_append_right _ (sub_append_left _
      ((sub_joinSep_iff hW hAll hhd p.values).mpr ⟨v, hv, hsub⟩))

/-- The `results['policies']` accumulation loop of `analyze_iam_policy`. -/
def iamPol (text : Str) : List IamPolicyEntry :=
  iamFieldPatterns.foldl (fun acc pr =>
    let ms := findall1 pr.2 text
    if ms.isEmpty then acc else acc ++ [⟨pr.1, ms⟩]) []

theorem analyze_iam_pos (text : Str)
    (hcond : (iamIndicators.any (fun ind => pyIn ind text)) = true) :
    analyze_iam_policy text =
      ⟨true, iamPol text, some ⟨(iamPol text).length,
        (iamPol text).any (fun p => pyIn (str "Allow") (pyStrPolicy p)),
        (iamPol text).any (fun p => pyIn (str "Deny") (pyStrPolicy p))⟩⟩ := by
  unfold analyze_iam_policy iamPol
  rw [hcond]
  rfl

theorem iam_foldl_eq (l : List (Str × RE)) (text : Str)
    (acc : List IamPolicyEntry) :
    l.foldl (fun acc pr =>
      let ms := findall1 pr.2 text
      if ms.isEmpty then acc else acc ++ [⟨pr.1, ms⟩]) acc =
    acc ++ l.filterMap (fun pr =>
      if (findall1 pr.2 text).isEmpty then none
      else some ⟨pr.1, findall1 pr.2 text⟩) := by
  induction l generalizing acc with
  | nil => simp
  | cons pr l ih =>
    simp only [List.foldl_cons, List.filterMap_cons]
    cases hemp : (findall1 pr.2 text).isEmpty
    · simp only [hemp, Bool.false_eq_true, if_false]
      rw [ih]
      simp
    · simp only [hemp, if_true]
      rw [ih]

theorem iamPol_eq (text : Str) :
    iamPol text = iamFieldPatterns.filterMap (fun pr =>
      if (findall1 pr.2 text).isEmpty then none
      else some ⟨pr.1, findall1 pr.2 text⟩) := by
  rw [iamPol, iam_foldl_eq]
  simp

theorem mem_iamPol {text : Str} {p : IamPolicyEntry} (hp : p ∈ iamPol text) :
    p.component = str "effect" ∨ p.component = str "action" ∨
      p.component = str "resource" ∨ p.component = str "principal" := by
  rw [iamPol_eq] at hp
  obtain ⟨pr, hpr, hg⟩ := List.mem_filterMap.mp hp
  split at hg
  · cases hg
  · injection hg with h1
    subst h1
    simp only [iamFieldPatterns, List.mem_cons, List.mem_singleton,
      List.not_mem_nil, or_false] at hpr
    rcases hpr with rfl | rfl | rfl | rfl
    · exact Or.inl rfl
    · exact Or.inr (Or.inl rfl)
    · exact Or.inr (Or.inr (Or.inl rfl))
    · exact Or.inr (Or.inr (Or.inr rfl))

theorem filterMap_if_length {α β : Type} (c : α → Bool) (f : α → β)
    (l : List α) :
    (l.filterMap (fun x => if c x then none else some (f x))).length =
      (l.filter (fun x => !(c x))).length := by
  induction l with
  | nil => rfl
  | cons x l ih =>
    cases hx : c x <;>
      simp [List.filterMap_cons, List.filter_cons, hx, ih]

theorem any_policy_iff (w : Str) (hW : w ≠ [])
    (hAll : ∀ c ∈ w, iamSafeChar c = true)
    (hhd : ∀ hc, w.head? = some hc → iamHeadOk hc = true) (text : Str) :
    ((iamPol text).any (fun p => pyIn w (pyStrPolicy p)) = true ↔
      ∃ p ∈ iamPol text, ∃ v ∈ p.values, SubStr w v) := by
  rw [List.any_eq_true]
  constructor
  · rintro ⟨p, hp, hin⟩
    exact ⟨p, hp, (sub_pyStrPolicy_iff hW hAll hhd p (mem_iamPol hp)).mp
      (pyIn_iff.mp hin)⟩
  · rintro ⟨p, hp, hv⟩
    exact ⟨p, hp, pyIn_iff.mpr
      ((sub_pyStrPolicy_iff hW hAll hhd p (mem_iamPol hp)).mpr hv)⟩

/-- Amended claim C6: when `found = true`, `total_components_found` counts the
field types with at least one match, and `has_allow_effect` is true iff the
substring `Allow` occurs inside some collected value of any component (not
only among effect values, and by substring rather than equality); analogously
`has_deny_effect` with `Deny`. -/
theorem analyze_iam_summary_amended (text : Str)
    (h : (analyze_iam_policy text).found = true) :
    ∃ s, (analyze_iam_policy text).summary = some s ∧
      s.total_components_found = (iamFieldPatterns.filter
        (fun pr => !(findall1 pr.2 text).isEmpty)).length ∧
      (s.has_allow_effect = true ↔ ∃ p ∈ (analyze_iam_policy text).policies,
        ∃ v ∈ p.values, SubStr (str "Allow") v) ∧
      (s.has_deny_effect = true ↔ ∃ p ∈ (analyze_iam_policy text).policies,
        ∃ v ∈ p.values, SubStr (str "Deny") v) := by
  by_cases hcond : (iamIndicators.any (fun ind => pyIn ind text)) = true
  · have heq := analyze_iam_pos text hcond
    refine ⟨⟨(iamPol text).length,
      (iamPol text).any (fun p => pyIn (str "Allow") (pyStrPolicy p)),
      (iamPol text).any (fun p => pyIn (str "Deny") (pyStrPolicy p))⟩,
      by rw [heq], ?_, ?_, ?_⟩
    · show (iamPol text).length = _
      rw [iamPol_eq, filterMap_if_length]
    · show _ ↔ ∃ p ∈ (analyze_iam_policy text).policies, _
      rw [heq]
      exact any_policy_iff (str "Allow") (by decide) (by decide) (by decide) text
    · show _ ↔ ∃ p ∈ (analyze_iam_policy text).policies, _
      rw [heq]
      exact any_policy_iff (str "Deny") (by decide) (by decide) (by decide) text
  · exfalso
    have hf : (iamIndicators.any (fun ind => pyIn ind text)) = false := by
      revert hcond
      cases iamIndicators.any (fun ind => pyIn ind text) <;> simp
    have : analyze_iam_policy text = ⟨false, [], none⟩ := by
      unfold analyze_iam_policy
      rw [hf]
      rfl
    rw [this] at h
    cases h

/-- Witness for the amended C6 at a concrete effect-bearing text. -/
theorem analyze_iam_summary_amended_witness :
    (analyze_iam_policy (str "\"Effect\": \"Allow\"")).found = true ∧
    (∃ s, (analyze_iam_policy (str "\"Effect\": \"Allow\"")).summary = some s ∧
      s.total_components_found = (iamFieldPatterns.filter
        (fun pr => !(findall1 pr.2 (str "\"Effect\": \"Allow\"")).isEmpty)).length ∧
      (s.has_allow_effect = true ↔
        ∃ p ∈ (analyze_iam_policy (str "\"Effect\": \"Allow\"")).policies,
          ∃ v ∈ p.values, SubStr (str "Allow") v) ∧
      (s.has_deny_effect = true ↔
        ∃ p ∈ (analyze_iam_policy (str "\"Effect\": \"Allow\"")).policies,
          ∃ v ∈ p.values, SubStr (str "Deny") v)) :=
  ⟨by decide, analyze_iam_summary_amended (str "\"Effect\": \"Allow\"") (by decide)⟩
